import Mathlib

/-!
# mbedtee-supp: the REE filesystem supplicant

A shallow embedding of `src/reefs.c` and `src/main.c`.

Conventions of the embedding:

* C strings are `List Char`, one `Char` per byte, without the terminating NUL.
* `off_t`, `ssize_t` and `int` values are unbounded `Int`s (the payload lives in
  the 32 KiB shared arena, far from any wrap-around).
* Calls into the host (libc / kernel) are either an explicit state (directory
  streams, the set of existing directories) or an oracle that gives the result
  of each call; the sequence of calls a function issues is returned with it.
* `errno` values are the Linux ones.
-/

namespace Supp

/-! ## errno values and constants -/

def ENOENT : Int := 2
def E2BIG : Int := 7
def ENOMEM : Int := 12
def EBUSY : Int := 16
def EEXIST : Int := 17
def EINVAL : Int := 22
def ENOTSUP : Int := 95
def EOF : Int := -1

/-- `REEFS_PATH_MAX` of `reefs.c`. -/
def REEFS_PATH_MAX : Nat := 1024

/-- `REEFS_PATH` of `reefs.c`, the confinement root. -/
def REEFS_PATH : List Char := "/data/mbedtee/reefs".toList

/-- What a host call gave back: its return value and the `errno` it left. -/
structure IoResult where
  rc : Int
  errno : Int
  deriving DecidableEq, Repr

/-- The `i`-th byte of a C string: past the last character comes the NUL. -/
def charAt (s : List Char) (i : Nat) : Char := s.getD i (Char.ofNat 0)

/-- `reefs_path_prefix`: `snprintf(out, REEFS_PATH_MAX, "%s%s", REEFS_PATH, in)`,
which keeps at most `REEFS_PATH_MAX - 1` bytes before the NUL. -/
def reefs_path_prefix (p : List Char) : List Char :=
  (REEFS_PATH ++ p).take (REEFS_PATH_MAX - 1)

/-- `reefs_isroot`. -/
def reefs_isroot (path : List Char) : Bool :=
  path.length == 0 || (path.length == 1 && charAt path 0 == '/')

/-- The C string that starts a byte region: the bytes before the first NUL. -/
def cstr (bytes : List Char) : List Char := bytes.takeWhile (fun c => c ≠ Char.ofNat 0)

/-- `strnlen`. -/
def strnlen (bytes : List Char) (n : Nat) : Nat := min (cstr bytes).length n

/-- A host filesystem call that takes a path, as issued by the supplicant. -/
inductive HostCall where
  | access (path : List Char)
  | mkdir (path : List Char) (mode : Int)
  | openFile (path : List Char) (flags : Nat)
  | unlink (path : List Char)
  | rename (oldpath newpath : List Char)
  | rmdir (path : List Char)
  | opendir (path : List Char)
  deriving DecidableEq, Repr

/-! ## What a path denotes -/

/-- One step of cutting a path at its `/` bytes: the components completed so
far and the one being read. -/
def split_step (s : List (List Char) × List Char) (c : Char) : List (List Char) × List Char :=
  if c = '/' then (s.1 ++ [s.2], []) else (s.1, s.2 ++ [c])

/-- The `/`-delimited components of a path, empty ones included. -/
def components (path : List Char) : List (List Char) :=
  (path.foldl split_step ([], [])).1 ++ [(path.foldl split_step ([], [])).2]

/-- Path resolution, one component: empty and `.` stay, `..` goes to the parent
(the root is its own parent), a name goes down. -/
def resolve_step (stack : List (List Char)) (comp : List Char) : List (List Char) :=
  if comp = [] ∨ comp = ['.'] then stack
  else if comp = ['.', '.'] then stack.dropLast
  else stack ++ [comp]

/-- The location a path denotes, as the names from the filesystem root down to
it; symbolic links are not modelled. The supplicant runs with `/` as working
directory (`daemon(0, 0)`), so a relative path starts at the root as well. -/
def resolve (path : List Char) : List (List Char) :=
  (components path).foldl resolve_step []

/-- The location reached by the components of `pre` that a `/` has closed. -/
def walk_stack (pre : List Char) : List (List Char) :=
  (pre.foldl split_step ([], [])).1.foldl resolve_step []

/-- The location of `path` is the location of `root` or lies beneath it. -/
def Beneath (root path : List Char) : Prop := resolve root <+: resolve path

/-! ## The host filesystem as a set of directories -/

/-- The directories that exist, each by its location. -/
abbrev Dirs := List (List (List Char))

/-- `access(path, R_OK) == 0`: the path is not empty and its location exists. -/
def host_access (fs : Dirs) (path : List Char) : Bool :=
  !path.isEmpty && decide (resolve path ∈ fs)

/-- `mkdir(2)`: succeeds iff the parent exists and the target does not; the
`errno` otherwise. -/
def host_mkdir (fs : Dirs) (path : List Char) : Except Int Dirs :=
  if path = [] then Except.error ENOENT
  else if resolve path ∈ fs then Except.error EEXIST
  else if (resolve path).dropLast ∈ fs then Except.ok (resolve path :: fs)
  else Except.error ENOENT

/-- The block of `reefs_mkdirs` run for one prefix `dir` of the path:
`access`, and `mkdir` if that failed. An error is the value to return. -/
def mkdirs_visit (mode : Int) (fs : Dirs) (dir : List Char) : Except Int Dirs × List HostCall :=
  if host_access fs dir then (Except.ok fs, [HostCall.access dir])
  else
    match host_mkdir fs dir with
    | Except.error errno => (Except.error (-errno), [HostCall.access dir, HostCall.mkdir dir mode])
    | Except.ok fs1 => (Except.ok fs1, [HostCall.access dir, HostCall.mkdir dir mode])

/-- The `for (i = 0; i <= len; i++)` loop of `reefs_mkdirs`: `pre` holds
`dir[0..i)`, the second argument `dir[i..len)`. -/
def mkdirs_loop (mode : Int) :
    List Char → List Char → Dirs → List HostCall → Int × Dirs × List HostCall
  | pre, [], fs, calls =>
    match mkdirs_visit mode fs pre with
    | (Except.error ret, cs) => (ret, fs, calls ++ cs)
    | (Except.ok fs1, cs) => (0, fs1, calls ++ cs)
  | pre, c :: rest, fs, calls =>
    if c = '/' ∧ pre ≠ [] then
      match mkdirs_visit mode fs pre with
      | (Except.error ret, cs) => (ret, fs, calls ++ cs)
      | (Except.ok fs1, cs) => mkdirs_loop mode (pre ++ [c]) rest fs1 (calls ++ cs)
    else mkdirs_loop mode (pre ++ [c]) rest fs calls

/-- `reefs_mkdirs`: the value returned, the directories afterwards, the host
calls. -/
def reefs_mkdirs (fs : Dirs) (path : List Char) (mode : Int) : Int × Dirs × List HostCall :=
  mkdirs_loop mode [] path fs []

/-- `reefs_mkdir`. -/
def reefs_mkdir (fs : Dirs) (data : List Char) (flags : Int) : Int × Dirs × List HostCall :=
  reefs_mkdirs fs ( reefs_path_prefix data) flags

/-- The `for (i = l - 1; i >= 0; i--)` loop of `reefs_open` on the byte array
`dir`; the first argument is `l`, the second `i + 1`. -/
def open_parent_loop (l : Nat) : Nat → List Char → List Char
  | 0, dir => dir
  | i + 1, dir =>
    if charAt dir i = '/' then
      if i ≠ l - 1 then dir.set i (Char.ofNat 0)
      else open_parent_loop l i (dir.set i (Char.ofNat 0))
    else open_parent_loop l i dir

/-- The string `dir` that `reefs_open` hands to `reefs_mkdirs`. -/
def open_parent (path : List Char) : List Char :=
  cstr (open_parent_loop path.length path.length path)

/-- `reefs_open`. `O_CREAT` is the flag bit of the host's `fcntl.h`, `openRes`
what `open(2)` gives back if issued. -/
def reefs_open (O_CREAT : Nat) (openRes : IoResult) (fs : Dirs) (data : List Char) (flags : Nat) :
    Int × Dirs × List HostCall :=
  let path := reefs_path_prefix data
  let ret := if openRes.rc < 0 then -openRes.errno else openRes.rc
  if flags &&& O_CREAT ≠ 0 then
    let m := reefs_mkdirs fs (open_parent path) 0o700
    if m.1 ≠ 0 then m
    else (ret, m.2.1, m.2.2 ++ [HostCall.openFile path flags])
  else (ret, fs, [HostCall.openFile path flags])

/-- `reefs_unlink`. -/
def reefs_unlink (unlink : IoResult) (data : List Char) : Int × List HostCall :=
  let path := reefs_path_prefix data
  (if unlink.rc ≠ 0 then -unlink.errno else unlink.rc, [HostCall.unlink path])

/-- `reefs_rmdir`. -/
def reefs_rmdir (rmdir : IoResult) (data : List Char) : Int × List HostCall :=
  let path := reefs_path_prefix data
  if reefs_isroot data then (-EBUSY, [])
  else (if rmdir.rc ≠ 0 then -rmdir.errno else rmdir.rc, [HostCall.rmdir path])

/-- `reefs_rename` on the raw bytes of `r->data`: the source is the string at
its start, the destination the string at `strnlen(data, REEFS_PATH_MAX) + 1`.
`access` tells whether `access(path, R_OK) == 0`, `rename` is what `rename(2)`
gives back if issued. -/
def reefs_rename (access : List Char → Bool) (rename : IoResult) (data : List Char) :
    Int × List HostCall :=
  let offset := strnlen data REEFS_PATH_MAX + 1
  let oldpath := reefs_path_prefix (cstr data)
  let newpath := reefs_path_prefix (cstr (data.drop offset))
  if reefs_isroot (cstr data) then (-EBUSY, [])
  else if access newpath then (-EEXIST, [HostCall.access newpath])
  else (if rename.rc ≠ 0 then -rename.errno else rename.rc,
    [HostCall.access newpath, HostCall.rename oldpath newpath])

/-! ## reefs_read / reefs_write -/

/-- One underlying call as issued: the data offset, the count asked for, and
what came back. -/
structure IoCall where
  offset : Int
  count : Int
  rc : Int
  errno : Int
  deriving DecidableEq, Repr

/-- The host side of a transfer: the result of the `i`-th underlying call, given
the data offset and the count it was issued with. -/
abbrev IoOracle := Nat → Int → Int → IoResult

/-- What a transfer leaves: the value returned, the final `offset` (bytes moved)
and the underlying calls in order. -/
structure Xfer where
  ret : Int
  offset : Int
  calls : List IoCall
  deriving DecidableEq, Repr

/-- The `while (offset < r->len)` loop shared, statement for statement, by
`reefs_read` and `reefs_write`, followed by `return (rc < 0) ? rc : offset`.
`none` only when the fuel is used up with the loop condition still true. -/
def xfer_loop (io : IoOracle) (len : Int) : Nat → Int → Int → List IoCall → Option Xfer
  | fuel, offset, rc, calls =>
    if offset < len then
      match fuel with
      | 0 => none
      | fuel + 1 =>
        let rb := len - offset
        let r := io calls.length offset rb
        let calls1 := calls ++ [⟨offset, rb, r.rc, r.errno⟩]
        if r.rc < 0 then
          let rc1 := -r.errno
          some ⟨if rc1 < 0 then rc1 else offset, offset, calls1⟩
        else if r.rc = 0 then
          some ⟨if r.rc < 0 then r.rc else offset, offset, calls1⟩
        else
          xfer_loop io len fuel (offset + r.rc) r.rc calls1
    else
      some ⟨if rc < 0 then rc else offset, offset, calls⟩

/-- `reefs_read`: `rc = -1, offset = 0`, then the loop over `read`. -/
def reefs_read (read : IoOracle) (len : Int) : Option Xfer :=
  xfer_loop read len len.toNat 0 (-1) []

/-- `reefs_write`: `rc = -1, offset = 0`, then the loop over `write`. -/
def reefs_write (write : IoOracle) (len : Int) : Option Xfer :=
  xfer_loop write len len.toNat 0 (-1) []

/-- Offsets and counts of a call sequence are those of a gap-free transfer of
`len` bytes starting at `start`: each call is issued at the sum of the results
before it and asks for all that is left. -/
def Contiguous (len : Int) : Int → List IoCall → Prop
  | _, [] => True
  | start, c :: cs => c.offset = start ∧ c.count = len - start ∧ Contiguous len (start + c.rc) cs

/-- Bytes moved by a call sequence: the sum of its positive results. -/
def moved : List IoCall → Int
  | [] => 0
  | c :: cs => (if 0 < c.rc then c.rc else 0) + moved cs

/-- A host whose first transfer moves 2 bytes and whose second fails with
`EIO` (5). -/
def ioShortThenFail : IoOracle := fun i _ _ =>
  if i = 0 then ⟨2, 0⟩ else ⟨-1, 5⟩

/-- A host that moves one byte per call. -/
def ioOneByte : IoOracle := fun _ _ _ => ⟨1, 0⟩

/-! ## Directory streams -/

/-- One entry as the host `readdir` yields it (`struct dirent`). -/
structure HostDirent where
  d_name : List Char
  d_off : Int
  d_type : Nat
  deriving DecidableEq, Repr

/-- An open `DIR`: a finite list of entries and the current position. -/
structure DirStream where
  entries : List HostDirent
  pos : Nat
  deriving DecidableEq, Repr

/-- `telldir(3)`. -/
def telldir (dir : DirStream) : Nat := dir.pos

/-- `seekdir(3)`. -/
def seekdir (dir : DirStream) (loc : Nat) : DirStream := { dir with pos := loc }

/-- `readdir(3)`: the entry at the current position, stepping over it, or `NULL`
at the end of the stream. -/
def readdir (dir : DirStream) : Option HostDirent × DirStream :=
  match dir.entries.get? dir.pos with
  | some e => (some e, { dir with pos := dir.pos + 1 })
  | none => (none, dir)

/-- A libc call on a directory stream as issued by the supplicant; `null` tells
that the `DIR *` handed over was `NULL`. -/
inductive DirCall where
  | telldir (null : Bool)
  | readdir (null : Bool)
  | seekdir (null : Bool) (loc : Int)
  | closedir (null : Bool)
  deriving DecidableEq, Repr

/-- Sizes `reefs_readdir` takes from the ABI and from `struct reefs_dirent`
(declared in `rpc/reefs.h`, outside the repository): `sizeof(long)` and the sum
`sizeof(d->d_reclen) + sizeof(d->d_off) + sizeof(d->d_type)`. -/
structure Abi where
  long_size : Nat
  structsz : Nat
  deriving DecidableEq, Repr

/-- Modelled from the spec: `struct reefs_dirent` as written into the caller's
region (its declaration is in `rpc/reefs.h`, outside the repository): record
length, resume cookie, type tag and name; `start` is the byte offset of the
record from `r->data`. -/
structure ReefsDirent where
  start : Int
  d_reclen : Int
  d_off : Int
  d_type : Nat
  d_name : List Char
  deriving DecidableEq, Repr

/-- The test of `reefs_readdir` that makes it `continue`:
`e->d_name[0] == '.' && (e->d_name[1] == 0 || e->d_name[1] == '.')`. -/
def skipped (d_name : List Char) : Bool :=
  charAt d_name 0 == '.' && (charAt d_name 1 == Char.ofNat 0 || charAt d_name 1 == '.')

/-- The packed record length of `reefs_readdir` for a name:
`str_len = strlen + 1`, `reclen = str_len + structsz`, rounded up to
`sizeof(long)`. -/
def reclen_of (abi : Abi) (d_name : List Char) : Int :=
  let str_len := d_name.length + 1
  let reclen := str_len + abi.structsz
  (((reclen + abi.long_size - 1) / abi.long_size) * abi.long_size : Nat)

/-- What one `reefs_readdir` leaves: the value returned, the stream, the
records written in order, and the libc calls issued. -/
structure Readdir where
  ret : Int
  dir : DirStream
  out : List ReefsDirent
  calls : List DirCall
  deriving DecidableEq, Repr

/-- The `while (cnt && ((e = readdir(dir)) != NULL))` loop of `reefs_readdir`
with the two returns after it. `d` is the write pointer as an offset from
`r->data`. `none` only when the fuel is used up with the loop still running. -/
def readdir_loop (abi : Abi) :
    Nat → DirStream → Int → Int → Nat → Int → List ReefsDirent → List DirCall → Option Readdir
  | fuel, dir, cnt, retlen, lastdoff, d, out, calls =>
    if cnt ≠ 0 then
      match fuel with
      | 0 => none
      | fuel + 1 =>
        match readdir dir with
        | (none, dir1) =>
          some ⟨if retlen = 0 then EOF else retlen, dir1, out, calls ++ [DirCall.readdir false]⟩
        | (some e, dir1) =>
          if skipped e.d_name then
            readdir_loop abi fuel dir1 cnt retlen lastdoff d out
              (calls ++ [DirCall.readdir false])
          else
            let reclen := reclen_of abi e.d_name
            if reclen > cnt then
              some ⟨if retlen = 0 then -E2BIG else retlen, seekdir dir1 lastdoff, out,
                calls ++ [DirCall.readdir false, DirCall.seekdir false lastdoff]⟩
            else
              readdir_loop abi fuel dir1 (cnt - reclen) (retlen + reclen) (telldir dir1)
                (d + reclen) (out ++ [⟨d, reclen, e.d_off, e.d_type, e.d_name⟩])
                (calls ++ [DirCall.readdir false, DirCall.telldir false])
    else
      some ⟨if retlen = 0 then EOF else retlen, dir, out, calls⟩

/-! ## Directory handles: pthread keys -/

/-- The thread-specific data of the serving thread: the live keys, each with the
stream its value points to. -/
abbrev Keys := List (Nat × DirStream)

def PTHREAD_KEYS_MAX : Nat := 1024

/-- The first of `n` keys from `k` on that is not live. -/
def first_free (ks : Keys) : Nat → Nat → Option Nat
  | 0, _ => none
  | n + 1, k => if (ks.lookup k).isNone then some k else first_free ks n (k + 1)

/-- `pthread_key_create`: the lowest key not in use, if there is one. -/
def pthread_key_create (ks : Keys) : Option Nat := first_free ks PTHREAD_KEYS_MAX 0

/-- `pthread_getspecific`: the value of a live key, `NULL` for any other. -/
def pthread_getspecific (ks : Keys) (k : Int) : Option DirStream :=
  if 0 ≤ k then ks.lookup k.toNat else none

/-- `pthread_key_delete`. -/
def pthread_key_delete (ks : Keys) (k : Int) : Keys :=
  ks.filter (fun e => decide ((e.1 : Int) ≠ k))

/-- `pthread_setspecific`; also the write-back of a stream that a libc call
moved. -/
def pthread_setspecific (ks : Keys) (k : Int) (dir : DirStream) : Keys :=
  (k.toNat, dir) :: pthread_key_delete ks k

/-- `reefs_opendir`. `opendir` is the host call: the entries of the directory or
the `errno` of the failure. Returns the value returned, the keys and the host
calls. -/
def reefs_opendir (opendir : List Char → Except Int (List HostDirent)) (ks : Keys)
    (data : List Char) : Int × Keys × List HostCall :=
  let path := reefs_path_prefix data
  match pthread_key_create ks with
  | none => (-ENOMEM, ks, [])
  | some k =>
    match opendir path with
    | Except.error errno => (-errno, ks, [HostCall.opendir path])
    | Except.ok entries =>
      (k, pthread_setspecific ks k ⟨entries, 0⟩, [HostCall.opendir path])

/-- `reefs_closedir`. `closedir` is what the host call gives back if issued. -/
def reefs_closedir (closedir : IoResult) (ks : Keys) (fd : Int) : Int × Keys × List DirCall :=
  match pthread_getspecific ks fd with
  | none => (-EINVAL, ks, [])
  | some _ =>
    (if closedir.rc ≠ 0 then -closedir.errno else closedir.rc, pthread_key_delete ks fd,
      [DirCall.closedir false])

/-- `reefs_seekdir`: `seekdir(dir, r->len); return -errno;` with the `errno` the
thread holds at that point. -/
def reefs_seekdir (errno : Int) (ks : Keys) (fd : Int) (len : Int) : Int × Keys × List DirCall :=
  match pthread_getspecific ks fd with
  | none => (-EINVAL, ks, [])
  | some dir =>
    (-errno, pthread_setspecific ks fd (seekdir dir len.toNat), [DirCall.seekdir false len])

/-- What `reefs_readdir` leaves behind: the value returned, the keys, the
records written and the libc calls issued. -/
structure ReaddirResult where
  ret : Int
  keys : Keys
  out : List ReefsDirent
  calls : List DirCall
  deriving DecidableEq, Repr

/-- `reefs_readdir`. `telldir(dir)` is evaluated in the declarations, before the
`d == NULL || dir == NULL` check; `dataNull` tells whether `r->data` is `NULL`.
The loop gets as much fuel as there are entries ahead, plus one. -/
def reefs_readdir (abi : Abi) (ks : Keys) (fd : Int) (dataNull : Bool) (len : Int) :
    Option ReaddirResult :=
  let dir := pthread_getspecific ks fd
  let calls := [DirCall.telldir dir.isNone]
  match dir with
  | none => some ⟨-EINVAL, ks, [], calls⟩
  | some s =>
    if dataNull then some ⟨-EINVAL, ks, [], calls⟩
    else
      (readdir_loop abi (s.entries.length - s.pos + 1) s len 0 (telldir s) 0 [] calls).map
        (fun r => ⟨r.ret, pthread_setspecific ks fd r.dir, r.out, r.calls⟩)

/-- Records lie back to back from offset `a` to offset `b`: each starts where
the one before it ends by its stored `d_reclen`. -/
def Packed : Int → List ReefsDirent → Int → Prop
  | a, [], b => a = b
  | a, r :: rs, b => r.start = a ∧ Packed (a + r.d_reclen) rs b

/-- A stored record length is a multiple of `sizeof(long)` and covers the
header, the name and its NUL. -/
def WellSized (abi : Abi) (r : ReefsDirent) : Prop :=
  r.d_reclen % abi.long_size = 0 ∧ (abi.structsz : Int) + r.d_name.length + 1 ≤ r.d_reclen

/-- The entries the walk of `reefs_readdir` does not skip. -/
def kept (es : List HostDirent) : List HostDirent :=
  es.filter (fun e => !skipped e.d_name)

/-- The host entry a written record carries: name, cookie and type. -/
def payload (r : ReefsDirent) : HostDirent := ⟨r.d_name, r.d_off, r.d_type⟩

/-- The caller of the enumeration: `reefs_readdir` on the same handle with the
same length, again and again while the result is positive; gives the first
result that is not positive and all records written, in call order. -/
def readdir_all (abi : Abi) (fd : Int) (len : Int) :
    Nat → Keys → List ReefsDirent → Option (Int × List ReefsDirent)
  | 0, _, _ => none
  | n + 1, ks, acc =>
    match reefs_readdir abi ks fd false len with
    | none => none
    | some r =>
      if 0 < r.ret then readdir_all abi fd len n r.keys (acc ++ r.out)
      else some (r.ret, acc ++ r.out)

/-- An ABI with 8-byte `long` and an 11-byte record header. -/
def abi64 : Abi := ⟨8, 11⟩

/-- A host directory entry with a name only. -/
def entryNamed (name : String) : HostDirent := ⟨name.toList, 0, 0⟩

/-- A host on which every `opendir` succeeds and lists `.`, `..` and `a`. -/
def opendirOk : List Char → Except Int (List HostDirent) :=
  fun _ => Except.ok [entryNamed ".", entryNamed "..", entryNamed "a"]

/-! ## main.c: process_request and the serve loop -/

/-- `recv_request`: the `ioctl(TEE_IOC_SUPPL_RECV)` result decides. -/
def recv_request (ioctl : IoResult) : Int :=
  if ioctl.rc ≠ 0 then -ioctl.errno else 0

/-- `send_response`: the `ioctl(TEE_IOC_SUPPL_SEND)` result decides. -/
def send_response (ioctl : IoResult) : Int :=
  if ioctl.rc ≠ 0 then -ioctl.errno else 0

/-- What the transport saw during one `process_request`. -/
inductive Transport where
  | recv (ret : Int)
  | send (supp_ret : Int) (ret : Int)
  deriving DecidableEq, Repr

/-- `process_request`. `SUPP_REEFS` comes from a header outside the repository
and is a parameter; `func` is the function code the driver delivered,
`routine` what `reefs_routine(shm)` returns if it is called. -/
def process_request (SUPP_REEFS : Int) (recvIoctl : IoResult) (func : Int)
    (routine : Int) (sendIoctl : IoResult) : Int × List Transport :=
  let ret := recv_request recvIoctl
  if ret ≠ 0 then
    (ret, [Transport.recv ret])
  else
    let ret1 := if func = SUPP_REEFS then routine else -ENOTSUP
    (0, [Transport.recv ret, Transport.send ret1 (send_response sendIoctl)])

/-- Where `main` goes after one `process_request`. -/
inductive Next where
  | serve
  | restart
  deriving DecidableEq, Repr

/-- The body of `for (;;)` in `main`: a negative `ret` frees the arena, closes
the channel and jumps to `restart`; anything else serves the next request. -/
def main_loop_step (ret : Int) : Next :=
  if ret < 0 then Next.restart else Next.serve

/-! # Theorems -/

/-! ## The transfer loop -/

theorem moved_append (xs ys : List IoCall) : moved (xs ++ ys) = moved xs + moved ys := by
  induction xs with
  | nil => simp [moved]
  | cons x xs ih => simp [moved, ih]; ring

/-- The loop never runs out of fuel when given `len - offset` of it: every
iteration that continues moves at least one byte. -/
theorem xfer_loop_total (io : IoOracle) (len : Int) (fuel : Nat) (offset rc : Int)
    (calls : List IoCall) (hf : (len - offset).toNat ≤ fuel) :
    ∃ r, xfer_loop io len fuel offset rc calls = some r := by
  induction fuel generalizing offset rc calls with
  | zero =>
    unfold xfer_loop
    have : ¬ offset < len := by omega
    simp [this]
  | succ n ih =>
    unfold xfer_loop
    split
    · simp only
      split
      · exact ⟨_, rfl⟩
      · split
        · exact ⟨_, rfl⟩
        · apply ih
          omega
    · exact ⟨_, rfl⟩

/-- With a host that always moves between one byte and what was asked for, the
loop ends with everything moved, by calls that are contiguous. -/
theorem xfer_loop_complete (io : IoOracle) (len : Int)
    (hio : ∀ i off cnt, 0 < cnt → 0 < (io i off cnt).rc ∧ (io i off cnt).rc ≤ cnt)
    (fuel : Nat) (offset rc : Int) (calls : List IoCall)
    (hf : (len - offset).toNat ≤ fuel) (hle : offset ≤ len) (hrc : offset < len ∨ 0 ≤ rc) :
    ∃ cs, xfer_loop io len fuel offset rc calls = some ⟨len, len, calls ++ cs⟩ ∧
      Contiguous len offset cs ∧ offset + moved cs = len ∧
      ∀ c ∈ cs, 0 < c.rc ∧ c.rc ≤ c.count := by
  induction fuel generalizing offset rc calls with
  | zero =>
    unfold xfer_loop
    have h1 : ¬ offset < len := by omega
    have h2 : offset = len := by omega
    have h3 : ¬ rc < 0 := by omega
    refine ⟨[], ?_, ?_, ?_, ?_⟩ <;> simp [h1, h2, h3, Contiguous, moved]
  | succ n ih =>
    unfold xfer_loop
    by_cases hlt : offset < len
    · have hpos := hio calls.length offset (len - offset) (by omega)
      have h1 : ¬ (io calls.length offset (len - offset)).rc < 0 := by omega
      have h2 : ¬ (io calls.length offset (len - offset)).rc = 0 := by omega
      simp only [hlt, if_true, h1, h2, if_false]
      obtain ⟨cs, hcs, hcont, hmv, hall⟩ :=
        ih (offset + (io calls.length offset (len - offset)).rc)
          (io calls.length offset (len - offset)).rc
          (calls ++ [⟨offset, len - offset, (io calls.length offset (len - offset)).rc,
            (io calls.length offset (len - offset)).errno⟩])
          (by omega) (by omega) (Or.inr (by omega))
      refine ⟨⟨offset, len - offset, (io calls.length offset (len - offset)).rc,
            (io calls.length offset (len - offset)).errno⟩ :: cs, ?_, ?_, ?_, ?_⟩
      · rw [hcs]; simp
      · exact ⟨rfl, rfl, hcont⟩
      · simp only [moved, hpos.1, if_true]; omega
      · intro c hc
        rcases List.mem_cons.mp hc with h | h
        · subst h; exact hpos
        · exact hall c h
    · have h2 : offset = len := by omega
      have h3 : ¬ rc < 0 := by omega
      refine ⟨[], ?_, ?_, ?_, ?_⟩ <;> simp [hlt, h2, h3, Contiguous, moved]

/-- How the loop reports: with a host whose failures leave a positive `errno`,
the value returned is decided by the last call issued alone. -/
theorem xfer_loop_report (io : IoOracle) (len : Int)
    (herr : ∀ i off cnt, (io i off cnt).rc < 0 → 0 < (io i off cnt).errno)
    (fuel : Nat) (offset rc : Int) (calls : List IoCall)
    (hf : (len - offset).toNat ≤ fuel) (hmv : offset = moved calls) (h0 : 0 ≤ offset)
    (hinv : offset < len ∨ ∃ c, calls.getLast? = some c ∧ c.rc = rc ∧ 0 < rc) :
    ∃ r c, xfer_loop io len fuel offset rc calls = some r ∧
      r.offset = moved r.calls ∧ 0 ≤ r.offset ∧ r.calls.getLast? = some c ∧
      (c.rc < 0 → r.ret = -c.errno ∧ r.ret < 0) ∧ (0 ≤ c.rc → r.ret = r.offset) := by
  induction fuel generalizing offset rc calls with
  | zero =>
    unfold xfer_loop
    have h1 : ¬ offset < len := by omega
    rcases hinv with h | ⟨c, hc, hcrc, hpos⟩
    · exact absurd h h1
    · have h3 : ¬ rc < 0 := by omega
      refine ⟨⟨offset, offset, calls⟩, c, by simp [h1, h3], hmv, h0, hc, ?_, ?_⟩
      · intro h; omega
      · intro _; rfl
  | succ n ih =>
    unfold xfer_loop
    by_cases hlt : offset < len
    · simp only [hlt, if_true]
      have he := herr calls.length offset (len - offset)
      generalize io calls.length offset (len - offset) = res at he
      by_cases hneg : res.rc < 0
      · have he2 : -res.errno < 0 := by have := he hneg; omega
        have hnp : ¬ 0 < res.rc := by omega
        refine ⟨⟨-res.errno, offset, calls ++ [⟨offset, len - offset, res.rc, res.errno⟩]⟩,
          ⟨offset, len - offset, res.rc, res.errno⟩, by simp [hneg, he2], ?_, h0, by simp, ?_, ?_⟩
        · simp only [moved_append, moved, hnp, if_false]; omega
        · intro _; exact ⟨rfl, he2⟩
        · intro h; simp only at h; omega
      · by_cases hz : res.rc = 0
        · refine ⟨⟨offset, offset, calls ++ [⟨offset, len - offset, res.rc, res.errno⟩]⟩,
            ⟨offset, len - offset, res.rc, res.errno⟩, by simp [hz], ?_, h0, by simp, ?_, ?_⟩
          · simp only [moved_append, moved, hz]; simp; exact hmv
          · intro h; simp only [hz] at h; omega
          · intro _; rfl
        · simp only [hneg, hz, if_false]
          have hp : 0 < res.rc := by omega
          clear hinv
          apply ih
          · omega
          · simp only [moved_append, moved, hp, if_true]; omega
          · omega
          · right
            exact ⟨⟨offset, len - offset, res.rc, res.errno⟩, by simp, rfl, hp⟩
    · rcases hinv with h | ⟨c, hc, hcrc, hpos⟩
      · exact absurd h hlt
      · have h3 : ¬ rc < 0 := by omega
        refine ⟨⟨offset, offset, calls⟩, c, by simp [hlt, h3], hmv, h0, hc, ?_, ?_⟩
        · intro h; omega
        · intro _; rfl

/-- C7, as stated, fails: after a first read that moved 2 of 4 bytes the second
read fails with `EIO`, and `reefs_read` returns `-5` although 2 bytes were moved,
not the 2 the claim promises. -/
theorem reefs_read_error_hides_moved_bytes :
    ¬ (∀ r, reefs_read ioShortThenFail 4 = some r →
        (r.ret < 0 → moved r.calls = 0) ∧ (0 < moved r.calls → r.ret = moved r.calls)) := by
  intro h
  have h1 : reefs_read ioShortThenFail 4 = some ⟨-5, 2, [⟨0, 4, 2, 0⟩, ⟨2, 2, -1, 5⟩]⟩ := by
    decide
  have h2 := (h _ h1).1
  revert h2
  decide

/-- C7, amended: for a request of positive length against a host whose failing
reads leave a positive `errno`, `reefs_read` returns, at least one read was
issued, and the last read issued decides the result alone: if it failed the
result is the negated `errno`, a negative value, whatever number of bytes the
earlier reads moved; otherwise the result is the number of bytes moved. -/
theorem reefs_read_reports_last_call (read : IoOracle) (len : Int) (hlen : 0 < len)
    (herr : ∀ i off cnt, (read i off cnt).rc < 0 → 0 < (read i off cnt).errno) :
    ∃ r c, reefs_read read len = some r ∧
      r.offset = moved r.calls ∧ 0 ≤ r.offset ∧ r.calls.getLast? = some c ∧
      (c.rc < 0 → r.ret = -c.errno ∧ r.ret < 0) ∧ (0 ≤ c.rc → r.ret = r.offset) := by
  unfold reefs_read
  exact xfer_loop_report read len herr len.toNat 0 (-1) [] (by simp) (by simp [moved])
    (le_refl 0) (Or.inl hlen)

/-- The amended C7 at a host whose second read fails after 2 of 4 bytes. -/
theorem reefs_read_reports_last_call_witness :
    ∃ r c, reefs_read ioShortThenFail 4 = some r ∧
      r.offset = moved r.calls ∧ 0 ≤ r.offset ∧ r.calls.getLast? = some c ∧
      (c.rc < 0 → r.ret = -c.errno ∧ r.ret < 0) ∧ (0 ≤ c.rc → r.ret = r.offset) :=
  reefs_read_reports_last_call ioShortThenFail 4 (by decide) (by
    intro i off cnt
    unfold ioShortThenFail
    split <;> simp)

/-- C8 at the failing input: a request of length 0 issues no call and returns
the initial `rc`, `-1`, from `reefs_read` and from `reefs_write`, where the claim
promises `len`, that is 0. -/
theorem reefs_read_write_zero_length (io : IoOracle) :
    reefs_read io 0 = some ⟨-1, 0, []⟩ ∧ reefs_write io 0 = some ⟨-1, 0, []⟩ := by
  constructor <;> rfl

/-- For a positive length and a host that always moves between one byte and
what was asked for, `reefs_read` and `reefs_write` return `len`, by calls each
issued at the sum of the results before it for all that is left. -/
theorem reefs_read_write_complete (io : IoOracle) (len : Int) (hlen : 0 < len)
    (hio : ∀ i off cnt, 0 < cnt → 0 < (io i off cnt).rc ∧ (io i off cnt).rc ≤ cnt) :
    ∃ cs, reefs_read io len = some ⟨len, len, cs⟩ ∧ reefs_write io len = some ⟨len, len, cs⟩ ∧
      Contiguous len 0 cs ∧ moved cs = len ∧ ∀ c ∈ cs, 0 < c.rc ∧ c.rc ≤ c.count := by
  obtain ⟨cs, h1, h2, h3, h4⟩ :=
    xfer_loop_complete io len hio len.toNat 0 (-1) [] (by simp) (by omega) (Or.inl hlen)
  refine ⟨cs, ?_, ?_, h2, by omega, h4⟩
  · simpa [reefs_read] using h1
  · simpa [reefs_write] using h1

/-- A transfer of 3 bytes against a host that moves one byte per call. -/
theorem reefs_read_write_complete_witness :
    ∃ cs, reefs_read ioOneByte 3 = some ⟨3, 3, cs⟩ ∧ reefs_write ioOneByte 3 = some ⟨3, 3, cs⟩ ∧
      Contiguous 3 0 cs ∧ moved cs = 3 ∧ ∀ c ∈ cs, 0 < c.rc ∧ c.rc ≤ c.count :=
  reefs_read_write_complete ioOneByte 3 (by decide) (by
    intro i off cnt h
    simp only [ioOneByte]
    omega)

/-! ## process_request -/

/-- C10 at the failing input: the request is received, the `ioctl` that sends
the response fails with `EIO`, `send_response` reports `-5`, and
`process_request` still returns 0, so `main` keeps serving on the same channel. -/
theorem process_request_drops_send_failure (SUPP_REEFS func routine : Int) :
    send_response ⟨-1, 5⟩ = -5 ∧
    (process_request SUPP_REEFS ⟨0, 0⟩ func routine ⟨-1, 5⟩).1 = 0 ∧
    main_loop_step (process_request SUPP_REEFS ⟨0, 0⟩ func routine ⟨-1, 5⟩).1 = Next.serve := by
  refine ⟨by decide, ?_, ?_⟩ <;> simp [process_request, recv_request, main_loop_step]

/-- The part of C10 the code does: a failing receive (positive `errno`) makes
`process_request` return a negative value without sending anything, and `main`
restarts; whenever the receive succeeds the return value is 0, whatever the
operation returned and whatever the function code was. -/
theorem process_request_recv (SUPP_REEFS func routine : Int) (recvIoctl sendIoctl : IoResult) :
    (recvIoctl.rc ≠ 0 → 0 < recvIoctl.errno →
      (process_request SUPP_REEFS recvIoctl func routine sendIoctl).1 < 0 ∧
      main_loop_step (process_request SUPP_REEFS recvIoctl func routine sendIoctl).1
        = Next.restart ∧
      (process_request SUPP_REEFS recvIoctl func routine sendIoctl).2
        = [Transport.recv (-recvIoctl.errno)]) ∧
    (recvIoctl.rc = 0 →
      (process_request SUPP_REEFS recvIoctl func routine sendIoctl).1 = 0 ∧
      main_loop_step (process_request SUPP_REEFS recvIoctl func routine sendIoctl).1
        = Next.serve) := by
  constructor
  · intro h1 h2
    have h3 : ¬ (-recvIoctl.errno = 0) := by omega
    have h4 : -recvIoctl.errno < 0 := by omega
    simp [process_request, recv_request, main_loop_step, h1, h3, h4]
  · intro h1
    simp [process_request, recv_request, main_loop_step, h1]

/-! ## reefs_readdir -/

theorem reclen_of_ge (abi : Abi) (h : 0 < abi.long_size) (name : List Char) :
    (abi.structsz : Int) + name.length + 1 ≤ reclen_of abi name := by
  unfold reclen_of
  simp only
  have h1 := Nat.div_add_mod (name.length + 1 + abi.structsz + abi.long_size - 1) abi.long_size
  have h2 := Nat.mod_lt (name.length + 1 + abi.structsz + abi.long_size - 1) h
  rw [Nat.mul_comm] at h1
  generalize (name.length + 1 + abi.structsz + abi.long_size - 1) / abi.long_size * abi.long_size
    = q at h1 ⊢
  omega

theorem reclen_of_mod (abi : Abi) (name : List Char) :
    reclen_of abi name % abi.long_size = 0 := by
  unfold reclen_of
  simp only
  norm_cast
  exact Nat.mul_mod_left _ _

theorem reclen_of_pos (abi : Abi) (h : 0 < abi.long_size) (name : List Char) :
    0 < reclen_of abi name := by
  have := reclen_of_ge abi h name
  omega

theorem packed_snoc (a b l : Int) (out : List ReefsDirent) (x : ReefsDirent)
    (h : Packed a out b) (hx : x.start = b) (hl : x.d_reclen = l) :
    Packed a (out ++ [x]) (b + l) := by
  induction out generalizing a with
  | nil =>
    simp only [Packed] at h
    subst h
    simp [Packed, hx, hl]
  | cons y ys ih =>
    obtain ⟨h1, h2⟩ := h
    exact ⟨h1, ih _ h2⟩

theorem packed_sum (a b : Int) (out : List ReefsDirent) (h : Packed a out b) :
    a + (out.map (fun r => r.d_reclen)).sum = b := by
  induction out generalizing a with
  | nil => simpa [Packed] using h
  | cons y ys ih =>
    obtain ⟨_, h2⟩ := h
    have := ih _ h2
    simp only [List.map_cons, List.sum_cons]
    omega

theorem readdir_cons (dir : DirStream) (e : HostDirent) (rest : List HostDirent)
    (h : dir.entries.drop dir.pos = e :: rest) :
    readdir dir = (some e, ⟨dir.entries, dir.pos + 1⟩) ∧
      dir.entries.drop (dir.pos + 1) = rest ∧ dir.pos < dir.entries.length := by
  have hlt : dir.pos < dir.entries.length := by
    by_contra hge
    rw [List.drop_eq_nil_of_le (by omega)] at h
    cases h
  rw [List.drop_eq_getElem_cons hlt] at h
  injection h with h1 h2
  refine ⟨?_, h2, hlt⟩
  unfold readdir
  rw [List.get?_eq_getElem?, List.getElem?_eq_getElem hlt, h1]

theorem readdir_nil (dir : DirStream) (h : dir.entries.drop dir.pos = []) :
    readdir dir = (none, dir) := by
  have hge : dir.entries.length ≤ dir.pos := List.drop_eq_nil_iff.mp h
  unfold readdir
  rw [List.get?_eq_getElem?, List.getElem?_eq_none hge]

theorem readdir_cases (dir : DirStream) :
    (readdir dir = (none, dir) ∧ dir.entries.length ≤ dir.pos) ∨
    ∃ e, readdir dir = (some e, ⟨dir.entries, dir.pos + 1⟩) ∧ dir.pos < dir.entries.length ∧
      dir.entries.drop dir.pos = e :: dir.entries.drop (dir.pos + 1) := by
  by_cases hlt : dir.pos < dir.entries.length
  · right
    have h := List.drop_eq_getElem_cons hlt
    exact ⟨_, (readdir_cons dir _ _ h).1, hlt, h⟩
  · left
    have h : dir.entries.drop dir.pos = [] := List.drop_eq_nil_of_le (by omega)
    exact ⟨readdir_nil dir h, by omega⟩

theorem readdir_loop_total (abi : Abi) (fuel : Nat) (dir : DirStream) (cnt retlen : Int)
    (lastdoff : Nat) (d : Int) (out : List ReefsDirent) (calls : List DirCall)
    (hf : dir.entries.length - dir.pos + 1 ≤ fuel) :
    ∃ r, readdir_loop abi fuel dir cnt retlen lastdoff d out calls = some r := by
  induction fuel generalizing dir cnt retlen lastdoff d out calls with
  | zero => omega
  | succ n ih =>
    unfold readdir_loop
    by_cases hc : cnt = 0
    · simp [hc]
    · simp only [ne_eq, hc, not_false_eq_true, if_true]
      rcases readdir_cases dir with ⟨hrd, _⟩ | ⟨e, hrd, hlt, _⟩
      · rw [hrd]; exact ⟨_, rfl⟩
      · rw [hrd]
        simp only
        cases hs : skipped e.d_name with
        | true =>
          simp only [if_true]
          apply ih
          simp only
          omega
        | false =>
          simp only [Bool.false_eq_true, if_false]
          by_cases hbig : reclen_of abi e.d_name > cnt
          · simp only [hbig, if_true]; exact ⟨_, rfl⟩
          · simp only [hbig, if_false]
            apply ih
            simp only
            omega

theorem readdir_loop_layout (abi : Abi) (h : 0 < abi.long_size) (len : Int)
    (fuel : Nat) (dir : DirStream) (cnt retlen : Int) (lastdoff : Nat) (d : Int)
    (out : List ReefsDirent) (calls : List DirCall) (r : Readdir)
    (hr : readdir_loop abi fuel dir cnt retlen lastdoff d out calls = some r)
    (hsum : retlen + cnt = len) (hd : d = retlen) (h0 : 0 ≤ retlen)
    (hcnt : 0 ≤ cnt ∨ retlen = 0) (hp : Packed 0 out retlen)
    (hw : ∀ x ∈ out, WellSized abi x) :
    0 < r.ret → r.ret ≤ len ∧ Packed 0 r.out r.ret ∧ ∀ x ∈ r.out, WellSized abi x := by
  induction fuel generalizing dir cnt retlen lastdoff d out calls with
  | zero =>
    unfold readdir_loop at hr
    by_cases hc : cnt = 0
    · simp only [hc, ne_eq, not_true_eq_false, if_false, Option.some.injEq] at hr
      subst hr
      intro hpos
      simp only at hpos ⊢
      by_cases hz : retlen = 0
      · simp [hz, EOF] at hpos
      · simp only [hz, if_false] at hpos ⊢
        exact ⟨by omega, hp, hw⟩
    · simp [hc] at hr
  | succ n ih =>
    unfold readdir_loop at hr
    by_cases hc : cnt = 0
    · simp only [hc, ne_eq, not_true_eq_false, if_false, Option.some.injEq] at hr
      subst hr
      intro hpos
      simp only at hpos ⊢
      by_cases hz : retlen = 0
      · simp [hz, EOF] at hpos
      · simp only [hz, if_false] at hpos ⊢
        exact ⟨by omega, hp, hw⟩
    · simp only [ne_eq, hc, not_false_eq_true, if_true] at hr
      cases hrd : readdir dir with
      | mk oe dir1 =>
        rw [hrd] at hr
        cases oe with
        | none =>
          simp only [Option.some.injEq] at hr
          subst hr
          intro hpos
          simp only at hpos ⊢
          by_cases hz : retlen = 0
          · simp [hz, EOF] at hpos
          · simp only [hz, if_false] at hpos ⊢
            exact ⟨by omega, hp, hw⟩
        | some e =>
          simp only at hr
          cases hs : skipped e.d_name with
          | true =>
            simp only [hs, if_true] at hr
            exact ih _ _ _ _ _ _ _ hr hsum hd h0 hcnt hp hw
          | false =>
            simp only [hs, Bool.false_eq_true, if_false] at hr
            by_cases hbig : reclen_of abi e.d_name > cnt
            · simp only [hbig, if_true, Option.some.injEq] at hr
              subst hr
              intro hpos
              simp only at hpos ⊢
              by_cases hz : retlen = 0
              · simp [hz, E2BIG] at hpos
              · simp only [hz, if_false] at hpos ⊢
                exact ⟨by omega, hp, hw⟩
            · simp only [hbig, if_false] at hr
              have hge := reclen_of_ge abi h e.d_name
              refine ih _ _ _ _ _ _ _ hr (by omega) (by omega) (by omega) (Or.inl (by omega))
                (packed_snoc 0 retlen _ out _ hp hd rfl) ?_
              intro x hx
              rcases List.mem_append.mp hx with hx | hx
              · exact hw x hx
              · simp only [List.mem_singleton] at hx
                subst hx
                exact ⟨reclen_of_mod abi _, hge⟩

theorem getspecific_nonneg (ks : Keys) (fd : Int) (s : DirStream)
    (h : pthread_getspecific ks fd = some s) : 0 ≤ fd := by
  unfold pthread_getspecific at h
  by_contra hn
  simp [hn] at h

theorem getspecific_set (ks : Keys) (fd : Int) (s : DirStream) (h : 0 ≤ fd) :
    pthread_getspecific (pthread_setspecific ks fd s) fd = some s := by
  simp [pthread_getspecific, pthread_setspecific, h, List.lookup]

theorem lookup_key_delete (ks : Keys) (fd : Int) (h : 0 ≤ fd) :
    (pthread_key_delete ks fd).lookup fd.toNat = none := by
  induction ks with
  | nil => rfl
  | cons x xs ih =>
    obtain ⟨k, v⟩ := x
    unfold pthread_key_delete at ih ⊢
    simp only [List.filter]
    by_cases hk : (k : Int) = fd
    · simp only [hk, ne_eq, not_true_eq_false, decide_False]
      exact ih
    · simp only [ne_eq, hk, not_false_eq_true, decide_True, List.lookup]
      have : (fd.toNat == k) = false := by
        simp only [beq_eq_false_iff_ne, ne_eq]
        omega
      rw [this]
      exact ih

theorem getspecific_delete (ks : Keys) (fd : Int) :
    pthread_getspecific (pthread_key_delete ks fd) fd = none := by
  unfold pthread_getspecific
  by_cases h : 0 ≤ fd
  · simp only [h, if_true]
    exact lookup_key_delete ks fd h
  · simp [h]

/-- C2: whenever `reefs_readdir` returns a positive `n`, `n` is at most the
buffer length, the records written lie back to back from offset 0 to offset `n`
by their stored `d_reclen`, every stored `d_reclen` is a multiple of
`sizeof(long)` and at least header size plus name length plus one, and the
stored lengths add up to `n`. -/
theorem reefs_readdir_layout (abi : Abi) (h : 0 < abi.long_size) (ks : Keys) (fd : Int)
    (dataNull : Bool) (len : Int) (r : ReaddirResult)
    (hr : reefs_readdir abi ks fd dataNull len = some r) (hpos : 0 < r.ret) :
    r.ret ≤ len ∧ Packed 0 r.out r.ret ∧ (∀ x ∈ r.out, WellSized abi x) ∧
      (r.out.map (fun x => x.d_reclen)).sum = r.ret := by
  unfold reefs_readdir at hr
  simp only at hr
  cases hg : pthread_getspecific ks fd with
  | none =>
    simp only [hg, Option.some.injEq] at hr
    subst hr
    simp [EINVAL] at hpos
  | some s =>
    simp only [hg] at hr
    cases dataNull with
    | true =>
      simp only [if_true, Option.some.injEq] at hr
      subst hr
      simp [EINVAL] at hpos
    | false =>
      simp only [Bool.false_eq_true, if_false, Option.map_eq_some'] at hr
      obtain ⟨r0, hr0, hrr⟩ := hr
      subst hrr
      simp only at hpos ⊢
      have := readdir_loop_layout abi h len _ _ _ _ _ _ _ _ r0 hr0 (by omega) rfl (le_refl 0)
        (Or.inr rfl) rfl (by simp) hpos
      refine ⟨this.1, this.2.1, this.2.2, ?_⟩
      have hs := packed_sum 0 _ _ this.2.1
      omega

/-- C2 at a directory with `.`, `..`, `x` and `hello` and a buffer of 64 bytes:
the call returns 40 with two records, of 16 and 24 bytes. -/
theorem reefs_readdir_layout_witness :
    (40 : Int) ≤ 64 ∧
    Packed 0 [⟨0, 16, 0, 0, ['x']⟩, ⟨16, 24, 0, 0, "hello".toList⟩] 40 ∧
    (∀ x ∈ [(⟨0, 16, 0, 0, ['x']⟩ : ReefsDirent), ⟨16, 24, 0, 0, "hello".toList⟩],
      WellSized abi64 x) ∧
    ([(⟨0, 16, 0, 0, ['x']⟩ : ReefsDirent), ⟨16, 24, 0, 0, "hello".toList⟩].map
      (fun x => x.d_reclen)).sum = 40 :=
  reefs_readdir_layout abi64 (by decide)
    [(0, ⟨[entryNamed ".", entryNamed "..", entryNamed "x", entryNamed "hello"], 0⟩)] 0 false 64
    ⟨40, [(0, ⟨[entryNamed ".", entryNamed "..", entryNamed "x", entryNamed "hello"], 4⟩)],
      [⟨0, 16, 0, 0, ['x']⟩, ⟨16, 24, 0, 0, "hello".toList⟩],
      [DirCall.telldir false, DirCall.readdir false, DirCall.readdir false, DirCall.readdir false,
        DirCall.telldir false, DirCall.readdir false, DirCall.telldir false,
        DirCall.readdir false]⟩
    (by decide) (by decide)

theorem skipped_dot (n : List Char) (h : n = ['.'] ∨ n = ['.', '.']) : skipped n = true := by
  rcases h with h | h <;> subst h <;> decide

theorem not_skipped (n : List Char) (hnul : Char.ofNat 0 ∉ n) (h1 : n ≠ ['.'])
    (h2 : ¬ ['.', '.'] <+: n) : skipped n = false := by
  match n with
  | [] => simp [skipped, charAt]
  | [c] =>
    have hc : c ≠ '.' := fun h => h1 (by rw [h])
    simp [skipped, charAt, hc]
  | c :: c2 :: t =>
    have hc2 : c2 ≠ Char.ofNat 0 := by
      intro h
      apply hnul
      simp [h]
    by_cases hc : c = '.'
    · have hd : c2 ≠ '.' := by
        intro h
        apply h2
        exact ⟨t, by simp [hc, h]⟩
      simp [skipped, charAt, hc2, hd]
    · simp [skipped, charAt, hc]

theorem readdir_loop_overflow (abi : Abi) (e : HostDirent) (post : List HostDirent)
    (cnt retlen : Int) (lastdoff : Nat) (d : Int) (out : List ReefsDirent)
    (he : skipped e.d_name = false) (hc : cnt ≠ 0) (hsmall : cnt < reclen_of abi e.d_name)
    (pre : List HostDirent) (hpre : ∀ x ∈ pre, skipped x.d_name = true)
    (fuel : Nat) (dir : DirStream) (calls : List DirCall)
    (hahead : dir.entries.drop dir.pos = pre ++ e :: post) (hf : pre.length + 1 ≤ fuel) :
    ∃ calls1, readdir_loop abi fuel dir cnt retlen lastdoff d out calls =
      some ⟨if retlen = 0 then -E2BIG else retlen, ⟨dir.entries, lastdoff⟩, out, calls1⟩ := by
  induction pre generalizing fuel dir calls with
  | nil =>
    obtain ⟨n, rfl⟩ : ∃ n, fuel = n + 1 := ⟨fuel - 1, by simp at hf; omega⟩
    obtain ⟨hrd, -, -⟩ := readdir_cons dir e post (by simpa using hahead)
    unfold readdir_loop
    simp only [ne_eq, hc, not_false_eq_true, if_true, hrd, he, Bool.false_eq_true, if_false,
      gt_iff_lt, hsmall, seekdir]
    exact ⟨_, rfl⟩
  | cons x xs ih =>
    obtain ⟨n, rfl⟩ : ∃ n, fuel = n + 1 := ⟨fuel - 1, by simp at hf; omega⟩
    obtain ⟨hrd, hrest, -⟩ := readdir_cons dir x (xs ++ e :: post) (by simpa using hahead)
    unfold readdir_loop
    simp only [ne_eq, hc, not_false_eq_true, if_true, hrd, hpre x (List.mem_cons_self _ _)]
    exact ih (fun y hy => hpre y (List.mem_cons_of_mem _ hy)) n ⟨dir.entries, dir.pos + 1⟩ _
      hrest (by simp at hf ⊢; omega)

/-- C3, as stated, fails at `r->len = 0`: with the real entry `a` ahead, whose
packed length is positive, `reefs_readdir` returns `EOF`, not `-E2BIG`. -/
theorem reefs_readdir_zero_length_eof :
    ¬ (∀ r, (0 : Int) < reclen_of abi64 (entryNamed "a").d_name →
        reefs_readdir abi64 [(0, ⟨[entryNamed "a"], 0⟩)] 0 false 0 = some r →
        r.ret = -E2BIG) := by
  intro h
  have h1 := h ⟨EOF, [(0, ⟨[entryNamed "a"], 0⟩)], [], [DirCall.telldir false]⟩ (by decide)
    (by decide)
  revert h1
  decide

/-- C3, amended: let the entries ahead in the stream be `.` and `..` entries
followed by an entry `e` whose name is a C string other than `.` that does not
begin with `..`, and let `r->len` be smaller than the packed record length of
`e`. Then `reefs_readdir` returns, writes no record and leaves the stream of the
handle exactly as it was, position included; it returns `-E2BIG` when `r->len`
is not zero and `EOF` when `r->len` is zero. -/
theorem reefs_readdir_overflow (abi : Abi) (ks : Keys) (fd : Int) (len : Int) (s : DirStream)
    (pre post : List HostDirent) (e : HostDirent)
    (hs : pthread_getspecific ks fd = some s)
    (hahead : s.entries.drop s.pos = pre ++ e :: post)
    (hpre : ∀ x ∈ pre, x.d_name = ['.'] ∨ x.d_name = ['.', '.'])
    (hnul : Char.ofNat 0 ∉ e.d_name) (hdot : e.d_name ≠ ['.'])
    (hdotdot : ¬ ['.', '.'] <+: e.d_name)
    (hsmall : len < reclen_of abi e.d_name) :
    ∃ r, reefs_readdir abi ks fd false len = some r ∧ r.out = [] ∧
      pthread_getspecific r.keys fd = some s ∧
      (len ≠ 0 → r.ret = -E2BIG) ∧ (len = 0 → r.ret = EOF) := by
  have hfd := getspecific_nonneg ks fd s hs
  unfold reefs_readdir
  simp only [hs, Bool.false_eq_true, if_false]
  by_cases hz : len = 0
  · subst hz
    unfold readdir_loop
    simp only [ne_eq, not_true_eq_false, if_false, if_true, Option.map_some']
    exact ⟨_, rfl, rfl, getspecific_set ks fd s hfd, fun h => absurd h (by simp), fun _ => rfl⟩
  · have hlen : pre.length + 1 ≤ s.entries.length - s.pos + 1 := by
      have := congrArg List.length hahead
      simp only [List.length_drop, List.length_append, List.length_cons] at this
      omega
    obtain ⟨calls1, hloop⟩ := readdir_loop_overflow abi e post len 0 (telldir s) 0 []
      (not_skipped _ hnul hdot hdotdot) hz hsmall pre (fun x hx => skipped_dot _ (hpre x hx))
      _ s [DirCall.telldir (some s).isNone] hahead hlen
    rw [hloop]
    simp only [if_true, Option.map_some', telldir]
    exact ⟨_, rfl, rfl, getspecific_set ks fd s hfd, fun _ => rfl, fun h => absurd h hz⟩

/-- The amended C3 at a directory with `.`, `..` and `hello` (packed length 24)
and a buffer of 16 bytes. -/
theorem reefs_readdir_overflow_witness :
    ∃ r, reefs_readdir abi64
        [(0, ⟨[entryNamed ".", entryNamed "..", entryNamed "hello"], 0⟩)] 0 false 16 = some r ∧
      r.out = [] ∧
      pthread_getspecific r.keys 0 =
        some ⟨[entryNamed ".", entryNamed "..", entryNamed "hello"], 0⟩ ∧
      ((16 : Int) ≠ 0 → r.ret = -E2BIG) ∧ ((16 : Int) = 0 → r.ret = EOF) :=
  reefs_readdir_overflow abi64
    [(0, ⟨[entryNamed ".", entryNamed "..", entryNamed "hello"], 0⟩)] 0 16
    ⟨[entryNamed ".", entryNamed "..", entryNamed "hello"], 0⟩
    [entryNamed ".", entryNamed ".."] [] (entryNamed "hello")
    (by decide) (by decide) (by decide) (by decide) (by decide) (by decide) (by decide)

/-- C1 at the failing input: the directory lists `.`, `..` and `..a`; the entry
`..a` is real (its name is neither `.` nor `..`) and its packed length, 16, fits
the buffer of 64 bytes, yet the first call already returns `EOF` and no record
was written: the test on the first two bytes skipped `..a`. -/
theorem readdir_all_misses_dotdot_name :
    reclen_of abi64 (entryNamed "..a").d_name = 16 ∧
    readdir_all abi64 0 64 4
      [(0, ⟨[entryNamed ".", entryNamed "..", entryNamed "..a"], 0⟩)] [] = some (EOF, []) := by
  decide

/-- Once `reefs_closedir` has run on a handle, the key of the handle has no
value: `pthread_getspecific` gives `NULL` for it. -/
theorem closedir_retires_handle (closedir : IoResult) (ks : Keys) (fd : Int) :
    pthread_getspecific (reefs_closedir closedir ks fd).2.1 fd = none := by
  unfold reefs_closedir
  cases h : pthread_getspecific ks fd with
  | none => simpa using h
  | some s => simpa using getspecific_delete ks fd

/-- On a handle whose key has no value, `reefs_closedir` and `reefs_seekdir`
return `-EINVAL` without any libc call on a stream, and `reefs_readdir` returns
`-EINVAL` too, but only after `telldir` was called with the `NULL` stream. -/
theorem retired_handle_rejected (abi : Abi) (closedir : IoResult) (errno : Int) (ks : Keys)
    (fd : Int) (dataNull : Bool) (len : Int) (h : pthread_getspecific ks fd = none) :
    reefs_closedir closedir ks fd = (-EINVAL, ks, []) ∧
    reefs_seekdir errno ks fd len = (-EINVAL, ks, []) ∧
    reefs_readdir abi ks fd dataNull len = some ⟨-EINVAL, ks, [], [DirCall.telldir true]⟩ := by
  simp [reefs_closedir, reefs_seekdir, reefs_readdir, h]

/-- C5 at the failing input: `opendir("/")` gives handle 0, `closedir(0)`
succeeds, and the `readdir(0)` that follows returns `-EINVAL` only after it has
issued `telldir` on the `NULL` stream. -/
theorem reefs_readdir_closed_handle_telldir :
    reefs_opendir opendirOk [] ['/'] =
      (0, [(0, ⟨[entryNamed ".", entryNamed "..", entryNamed "a"], 0⟩)],
        [HostCall.opendir "/data/mbedtee/reefs/".toList]) ∧
    reefs_closedir ⟨0, 0⟩ [(0, ⟨[entryNamed ".", entryNamed "..", entryNamed "a"], 0⟩)] 0 =
      (0, [], [DirCall.closedir false]) ∧
    reefs_readdir abi64 [] 0 false 64 = some ⟨-EINVAL, [], [], [DirCall.telldir true]⟩ := by
  decide

/-! ## reefs_rename -/

theorem reefs_isroot_iff (s : List Char) : reefs_isroot s = true ↔ s = [] ∨ s = ['/'] := by
  match s with
  | [] => simp [reefs_isroot]
  | [c] => simp [reefs_isroot, charAt]
  | c :: c2 :: t => simp [reefs_isroot]

theorem cstr_append_nul (s rest : List Char) (h : Char.ofNat 0 ∉ s) :
    cstr (s ++ Char.ofNat 0 :: rest) = s := by
  induction s with
  | nil => simp [cstr]
  | cons c cs ih =>
    have hc : c ≠ Char.ofNat 0 := fun e => h (by simp [e])
    have hcs : Char.ofNat 0 ∉ cs := fun e => h (List.mem_cons_of_mem _ e)
    have := ih hcs
    unfold cstr at this ⊢
    rw [List.cons_append, List.takeWhile_cons]
    simp only [ne_eq, hc, not_false_eq_true, decide_True, if_true, this]

/-- A rename command laid out as two consecutive NUL-terminated strings, the
first shorter than `REEFS_PATH_MAX`, is read back as those two strings. -/
theorem rename_command_parse (s d tail : List Char) (hs : Char.ofNat 0 ∉ s)
    (hd : Char.ofNat 0 ∉ d) (hlen : s.length < REEFS_PATH_MAX) :
    cstr (s ++ Char.ofNat 0 :: (d ++ Char.ofNat 0 :: tail)) = s ∧
    cstr ((s ++ Char.ofNat 0 :: (d ++ Char.ofNat 0 :: tail)).drop
      (strnlen (s ++ Char.ofNat 0 :: (d ++ Char.ofNat 0 :: tail)) REEFS_PATH_MAX + 1)) = d := by
  have h1 := cstr_append_nul s (d ++ Char.ofNat 0 :: tail) hs
  refine ⟨h1, ?_⟩
  unfold strnlen
  rw [h1, Nat.min_eq_left (le_of_lt hlen)]
  have : (s ++ Char.ofNat 0 :: (d ++ Char.ofNat 0 :: tail)).drop (s.length + 1)
      = d ++ Char.ofNat 0 :: tail := by
    rw [← List.drop_drop]
    simp
  rw [this]
  exact cstr_append_nul d tail hd

/-- C6: with `s` and `d` the source and destination strings of the command as
`reefs_rename` reads them: if `s` names the root (`s` is empty or `/`) the result
is `-EBUSY` and no host call is made at all, whatever `access` would say of
`d`; if `s` does not name the root and the prefixed `d` exists the result is
`-EEXIST` and the only host call is that `access`; and whenever the host
`rename` is called, `s` does not name the root, the prefixed `d` does not
exist, and the call is on the two prefixed paths. -/
theorem reefs_rename_guards (access : List Char → Bool) (rename : IoResult) (data : List Char) :
    ((cstr data = [] ∨ cstr data = ['/']) →
      reefs_rename access rename data = (-EBUSY, [])) ∧
    (¬ (cstr data = [] ∨ cstr data = ['/']) →
      access ( reefs_path_prefix (cstr (data.drop (strnlen data REEFS_PATH_MAX + 1)))) = true →
      reefs_rename access rename data = (-EEXIST, [HostCall.access
        ( reefs_path_prefix (cstr (data.drop (strnlen data REEFS_PATH_MAX + 1))))])) ∧
    (∀ o n, HostCall.rename o n ∈ (reefs_rename access rename data).2 →
      ¬ (cstr data = [] ∨ cstr data = ['/']) ∧
      access ( reefs_path_prefix (cstr (data.drop (strnlen data REEFS_PATH_MAX + 1)))) = false ∧
      o = reefs_path_prefix (cstr data) ∧
      n = reefs_path_prefix (cstr (data.drop (strnlen data REEFS_PATH_MAX + 1)))) := by
  refine ⟨?_, ?_, ?_⟩
  · intro h
    have hr := (reefs_isroot_iff _).mpr h
    simp [reefs_rename, hr]
  · intro h ha
    have hr : reefs_isroot (cstr data) = false := by
      cases hb : reefs_isroot (cstr data) with
      | false => rfl
      | true => exact absurd ((reefs_isroot_iff _).mp hb) h
    simp [reefs_rename, hr, ha]
  · intro o n hmem
    cases hb : reefs_isroot (cstr data) with
    | true => simp [reefs_rename, hb] at hmem
    | false =>
      have hnr : ¬ (cstr data = [] ∨ cstr data = ['/']) := by
        intro h
        rw [(reefs_isroot_iff _).mpr h] at hb
        cases hb
      cases ha : access ( reefs_path_prefix (cstr (data.drop (strnlen data REEFS_PATH_MAX + 1))))
        with
      | true => simp [reefs_rename, hb, ha] at hmem
      | false =>
        simp only [reefs_rename, hb, ha, Bool.false_eq_true, if_false, List.mem_cons,
          reduceCtorEq, HostCall.rename.injEq, List.mem_nil_iff, or_false, false_or] at hmem
        exact ⟨hnr, rfl, hmem.1, hmem.2⟩

/-- C6 at `rename("/", "/x")` and at `rename("/a", "/b")` with `/b` existing. -/
theorem reefs_rename_guards_witness :
    reefs_rename (fun _ => false) ⟨0, 0⟩ ['/', Char.ofNat 0, '/', 'x', Char.ofNat 0]
      = (-EBUSY, []) ∧
    reefs_rename (fun _ => true) ⟨0, 0⟩ ['/', 'a', Char.ofNat 0, '/', 'b', Char.ofNat 0]
      = (-EEXIST, [HostCall.access "/data/mbedtee/reefs/b".toList]) :=
  ⟨(reefs_rename_guards (fun _ => false) ⟨0, 0⟩
      ['/', Char.ofNat 0, '/', 'x', Char.ofNat 0]).1 (by decide),
    (reefs_rename_guards (fun _ => true) ⟨0, 0⟩
      ['/', 'a', Char.ofNat 0, '/', 'b', Char.ofNat 0]).2.1 (by decide) (by decide)⟩

/-! ## Paths -/

theorem split_fold_base (q : List Char) (cs : List (List Char)) (cur : List Char) :
    q.foldl split_step (cs, cur) =
      (cs ++ (q.foldl split_step ([], cur)).1, (q.foldl split_step ([], cur)).2) := by
  induction q generalizing cs cur with
  | nil => simp
  | cons c q ih =>
    simp only [List.foldl_cons, split_step]
    by_cases hc : c = '/'
    · simp only [hc, if_true]
      rw [ih (cs ++ [cur]) [], ih ([] ++ [cur]) []]
      simp
    · simp only [hc, if_false]
      rw [ih cs (cur ++ [c]), ih [] (cur ++ [c])]

theorem components_append_slash (a b : List Char) :
    components (a ++ '/' :: b) = components a ++ components b := by
  unfold components
  simp only [List.foldl_append, List.foldl_cons]
  have h : split_step (List.foldl split_step ([], []) a) '/' =
      ((List.foldl split_step ([], []) a).1 ++ [(List.foldl split_step ([], []) a).2], []) := by
    simp [split_step]
  rw [h, split_fold_base b]
  simp

theorem root_prefix_foldl (root : List (List Char)) (comps : List (List Char))
    (stack : List (List Char)) (h : root <+: stack) (hdd : ['.', '.'] ∉ comps) :
    root <+: comps.foldl resolve_step stack := by
  induction comps generalizing stack with
  | nil => exact h
  | cons c cs ih =>
    simp only [List.foldl_cons]
    apply ih
    · unfold resolve_step
      have hc : c ≠ ['.', '.'] := fun e => hdd (by simp [e])
      by_cases h1 : c = [] ∨ c = ['.']
      · rw [if_pos h1]; exact h
      · rw [if_neg h1, if_neg hc]
        exact h.trans (List.prefix_append _ _)
    · exact fun e => hdd (List.mem_cons_of_mem _ e)

theorem reefs_path_prefix_short (p : List Char) (h : p.length ≤ 1004) :
    reefs_path_prefix p = REEFS_PATH ++ p := by
  unfold reefs_path_prefix
  apply List.take_of_length_le
  have : REEFS_PATH.length = 19 := by decide
  simp only [List.length_append, this, REEFS_PATH_MAX]
  omega

theorem reefs_path_prefix_root (p : List Char) : REEFS_PATH <+: reefs_path_prefix p := by
  unfold reefs_path_prefix
  have h : REEFS_PATH = (REEFS_PATH ++ p).take 19 := by
    have : REEFS_PATH.length = 19 := by decide
    rw [List.take_append_of_le_length (by omega), List.take_of_length_le (by omega)]
  have h2 : (REEFS_PATH ++ p).take 19 <+: (REEFS_PATH ++ p).take (REEFS_PATH_MAX - 1) :=
    (List.take_prefix_take_left _ (by decide))
  rw [← h] at h2
  exact h2

theorem beneath_of_clean (p : List Char) (hrel : p = [] ∨ p.head? = some '/')
    (hdd : ['.', '.'] ∉ components p) : Beneath REEFS_PATH (REEFS_PATH ++ p) := by
  unfold Beneath
  rcases hrel with h | h
  · subst h
    simp
  · match p, h with
    | c :: q, h =>
      simp only [List.head?_cons, Option.some.injEq] at h
      subst h
      have h1 : components ('/' :: q) = components [] ++ components q :=
        components_append_slash [] q
      have hq : ['.', '.'] ∉ components q := by
        intro e
        apply hdd
        rw [h1]
        exact List.mem_append_right _ e
      unfold resolve
      rw [components_append_slash, List.foldl_append]
      exact root_prefix_foldl _ _ _ (List.prefix_refl _) hq

theorem mkdirs_visit_calls (mode : Int) (fs : Dirs) (dir : List Char) (c : HostCall)
    (h : c ∈ (mkdirs_visit mode fs dir).2) :
    c = HostCall.access dir ∨ c = HostCall.mkdir dir mode := by
  unfold mkdirs_visit at h
  split at h
  · simp at h; exact Or.inl h
  · split at h <;> simpa using h

/-- Every host call of `reefs_mkdirs` is an `access` or a `mkdir` on a prefix of
the bytes of its path. -/
theorem mkdirs_loop_calls (mode : Int) (rest pre : List Char) (fs : Dirs)
    (calls : List HostCall) (c : HostCall)
    (h : c ∈ (mkdirs_loop mode pre rest fs calls).2.2) :
    c ∈ calls ∨ ∃ a, a <+: pre ++ rest ∧ (c = HostCall.access a ∨ c = HostCall.mkdir a mode) := by
  induction rest generalizing pre fs calls with
  | nil =>
    unfold mkdirs_loop at h
    have hv := mkdirs_visit_calls mode fs pre c
    cases hm : mkdirs_visit mode fs pre with
    | mk res cs =>
      rw [hm] at h hv
      have hc : c ∈ calls ++ cs := by
        cases res <;> simpa using h
      rcases List.mem_append.mp hc with h1 | h1
      · exact Or.inl h1
      · exact Or.inr ⟨pre, by simp, hv h1⟩
  | cons x rest ih =>
    unfold mkdirs_loop at h
    have hpre : pre <+: pre ++ x :: rest := List.prefix_append _ _
    have hstep : ∀ fs1 calls1, c ∈ (mkdirs_loop mode (pre ++ [x]) rest fs1 calls1).2.2 →
        c ∈ calls1 ∨ ∃ a, a <+: pre ++ x :: rest ∧
          (c = HostCall.access a ∨ c = HostCall.mkdir a mode) := by
      intro fs1 calls1 h1
      have := ih (pre ++ [x]) fs1 calls1 h1
      simpa using this
    by_cases hx : x = '/' ∧ pre ≠ []
    · rw [if_pos hx] at h
      have hv := mkdirs_visit_calls mode fs pre c
      cases hm : mkdirs_visit mode fs pre with
      | mk res cs =>
        rw [hm] at h hv
        cases res with
        | error e =>
          simp only at h
          rcases List.mem_append.mp h with h1 | h1
          · exact Or.inl h1
          · exact Or.inr ⟨pre, hpre, hv h1⟩
        | ok fs1 =>
          simp only at h
          rcases hstep fs1 _ h with h1 | h1
          · rcases List.mem_append.mp h1 with h2 | h2
            · exact Or.inl h2
            · exact Or.inr ⟨pre, hpre, hv h2⟩
          · exact Or.inr h1
    · rw [if_neg hx] at h
      exact hstep fs calls h

/-- C4, as stated, fails: `unlink` of `/../x` hands the host the path
`/data/mbedtee/reefs/../x`, which denotes `/data/mbedtee/x`, and the path made
for `x` is `/data/mbedtee/reefsx`; neither lies at or beneath the root. -/
theorem reefs_path_prefix_escapes :
    (reefs_unlink ⟨0, 0⟩ "/../x".toList).2
      = [HostCall.unlink "/data/mbedtee/reefs/../x".toList] ∧
    ¬ Beneath REEFS_PATH ( reefs_path_prefix "/../x".toList) ∧
    ¬ Beneath REEFS_PATH ( reefs_path_prefix "x".toList) := by
  refine ⟨by decide, ?_, ?_⟩
  · have h : resolve ( reefs_path_prefix "/../x".toList)
        = ["data".toList, "mbedtee".toList, "x".toList] := by decide
    have h0 : resolve REEFS_PATH = ["data".toList, "mbedtee".toList, "reefs".toList] := by
      decide
    unfold Beneath
    rw [h, h0]
    decide
  · have h : resolve ( reefs_path_prefix "x".toList)
        = ["data".toList, "mbedtee".toList, "reefsx".toList] := by decide
    have h0 : resolve REEFS_PATH = ["data".toList, "mbedtee".toList, "reefs".toList] := by
      decide
    unfold Beneath
    rw [h, h0]
    decide

/-- C4, amended: for every path string `p`, `reefs_path_prefix` gives at most
`REEFS_PATH_MAX - 1` bytes that begin with the bytes of `REEFS_PATH`; `unlink`,
`rmdir`, `opendir` and the `open` call of `reefs_open` hand exactly that path to
the host, `rename` hands the prefixed source and destination, and `reefs_mkdir`
hands it to `reefs_mkdirs`, whose `access` and `mkdir` calls are on byte
prefixes of it; and the path denotes a location at or beneath the root when
`p` is empty or begins with `/`, has no `..` component and has at most 1004
bytes. -/
theorem reefs_path_confinement (p : List Char) :
    ( reefs_path_prefix p).length ≤ REEFS_PATH_MAX - 1 ∧
    REEFS_PATH <+: reefs_path_prefix p ∧
    (∀ u, (reefs_unlink u p).2 = [HostCall.unlink ( reefs_path_prefix p)]) ∧
    (∀ r c, c ∈ (reefs_rmdir r p).2 → c = HostCall.rmdir ( reefs_path_prefix p)) ∧
    (∀ o ks c, c ∈ (reefs_opendir o ks p).2.2 → c = HostCall.opendir ( reefs_path_prefix p)) ∧
    (∀ oc res fs flags q f, HostCall.openFile q f ∈ (reefs_open oc res fs p flags).2.2 →
      q = reefs_path_prefix p) ∧
    (∀ fs flags c, c ∈ (reefs_mkdir fs p flags).2.2 →
      ∃ a, a <+: reefs_path_prefix p ∧ (c = HostCall.access a ∨ c = HostCall.mkdir a flags)) ∧
    (∀ acc ren data c, c ∈ (reefs_rename acc ren data).2 →
      c = HostCall.access
          ( reefs_path_prefix (cstr (data.drop (strnlen data REEFS_PATH_MAX + 1)))) ∨
      c = HostCall.rename ( reefs_path_prefix (cstr data))
          ( reefs_path_prefix (cstr (data.drop (strnlen data REEFS_PATH_MAX + 1))))) ∧
    ((p = [] ∨ p.head? = some '/') → ['.', '.'] ∉ components p → p.length ≤ 1004 →
      Beneath REEFS_PATH ( reefs_path_prefix p)) := by
  refine ⟨?_, reefs_path_prefix_root p, ?_, ?_, ?_, ?_, ?_, ?_, ?_⟩
  · unfold reefs_path_prefix
    exact List.length_take_le _ _
  · intro u; rfl
  · intro r c hc
    unfold reefs_rmdir at hc
    split at hc
    · simp at hc
    · simpa using hc
  · intro o ks c hc
    unfold reefs_opendir at hc
    simp only at hc
    split at hc
    · simp at hc
    · split at hc <;> simpa using hc
  · intro oc res fs flags q f hc
    unfold reefs_open at hc
    simp only at hc
    have hno : ∀ fs1 path1 mode, HostCall.openFile q f ∉ (reefs_mkdirs fs1 path1 mode).2.2 := by
      intro fs1 path1 mode hm
      rcases mkdirs_loop_calls mode path1 [] fs1 [] _ hm with h1 | ⟨a, -, h1 | h1⟩
      · simp at h1
      · cases h1
      · cases h1
    split at hc
    · split at hc
      · exact absurd hc (hno _ _ _)
      · rcases List.mem_append.mp hc with h1 | h1
        · exact absurd h1 (hno _ _ _)
        · simp only [List.mem_singleton, HostCall.openFile.injEq] at h1
          exact h1.1
    · simp only [List.mem_singleton, HostCall.openFile.injEq] at hc
      exact hc.1
  · intro fs flags c hc
    rcases mkdirs_loop_calls flags ( reefs_path_prefix p) [] fs [] c hc with h1 | h1
    · simp at h1
    · simpa using h1
  · intro acc ren data c hc
    unfold reefs_rename at hc
    simp only at hc
    split at hc
    · simp at hc
    · split at hc
      · simp only [List.mem_singleton] at hc
        exact Or.inl hc
      · simpa using hc
  · intro hrel hdd hlen
    rw [ reefs_path_prefix_short p hlen]
    exact beneath_of_clean p hrel hdd

/-- The amended C4 at the path `/a/./b`. -/
theorem reefs_path_confinement_witness :
    Beneath REEFS_PATH ( reefs_path_prefix "/a/./b".toList) :=
  (reefs_path_confinement "/a/./b".toList).2.2.2.2.2.2.2.2 (by decide) (by decide) (by decide)

/-! ## reefs_mkdirs -/

theorem resolve_eq_step (pre : List Char) :
    resolve pre = resolve_step (walk_stack pre) (pre.foldl split_step ([], [])).2 := by
  simp [resolve, components, walk_stack, List.foldl_append]

theorem walk_stack_slash (pre : List Char) : walk_stack (pre ++ ['/']) = resolve pre := by
  simp [resolve, components, walk_stack, List.foldl_append, split_step]

theorem walk_stack_other (pre : List Char) (c : Char) (hc : c ≠ '/') :
    walk_stack (pre ++ [c]) = walk_stack pre := by
  simp [walk_stack, List.foldl_append, split_step, hc]

theorem prefix_resolve_step (st q : List (List Char)) (cur : List Char)
    (h : q <+: resolve_step st cur) : q = resolve_step st cur ∨ q <+: st := by
  unfold resolve_step at h ⊢
  by_cases h1 : cur = [] ∨ cur = ['.']
  · rw [if_pos h1] at h; exact Or.inr h
  · rw [if_neg h1] at h ⊢
    by_cases h2 : cur = ['.', '.']
    · rw [if_pos h2] at h; exact Or.inr (h.trans (List.dropLast_prefix _))
    · rw [if_neg h2] at h ⊢
      exact List.prefix_concat_iff.mp h

theorem dropLast_resolve_step (st : List (List Char)) (cur : List Char) :
    (resolve_step st cur).dropLast <+: st := by
  unfold resolve_step
  by_cases h1 : cur = [] ∨ cur = ['.']
  · rw [if_pos h1]; exact List.dropLast_prefix _
  · rw [if_neg h1]
    by_cases h2 : cur = ['.', '.']
    · rw [if_pos h2]; exact (List.dropLast_prefix _).trans (List.dropLast_prefix _)
    · rw [if_neg h2]; simp

/-- One visit of `reefs_mkdirs`: when every location down to the one reached so
far exists, the visit of a non-empty prefix succeeds, removes nothing, and
afterwards every location down to the one the prefix denotes exists. -/
theorem mkdirs_visit_ok (mode : Int) (fs : Dirs) (pre : List Char) (hne : pre ≠ [])
    (hinv : ∀ q, q <+: walk_stack pre → q ∈ fs) :
    ∃ fs1 cs, mkdirs_visit mode fs pre = (Except.ok fs1, cs) ∧ fs ⊆ fs1 ∧
      ∀ q, q <+: resolve pre → q ∈ fs1 := by
  have hF1 := fun q => prefix_resolve_step (walk_stack pre) q (pre.foldl split_step ([], [])).2
  have hF2 := dropLast_resolve_step (walk_stack pre) (pre.foldl split_step ([], [])).2
  rw [← resolve_eq_step] at hF1 hF2
  unfold mkdirs_visit host_access
  have hemp : pre.isEmpty = false := by
    cases pre with
    | nil => exact absurd rfl hne
    | cons _ _ => rfl
  by_cases hin : resolve pre ∈ fs
  · refine ⟨fs, [HostCall.access pre], by simp [hemp, hin], List.Subset.refl _, ?_⟩
    intro q hq
    rcases hF1 q hq with h | h
    · rw [h]; exact hin
    · exact hinv q h
  · have hpar : (resolve pre).dropLast ∈ fs := hinv _ hF2
    refine ⟨resolve pre :: fs, [HostCall.access pre, HostCall.mkdir pre mode],
      by simp [hemp, hin, host_mkdir, hne, hpar],
      List.subset_cons_self _ _, ?_⟩
    intro q hq
    rcases hF1 q hq with h | h
    · rw [h]; exact List.mem_cons_self _ _
    · exact List.mem_cons_of_mem _ (hinv q h)

theorem mkdirs_loop_ok (mode : Int) (rest pre : List Char) (fs : Dirs) (calls : List HostCall)
    (hne : pre ++ rest ≠ []) (hinv : ∀ q, q <+: walk_stack pre → q ∈ fs) :
    ∃ fs1 cs, mkdirs_loop mode pre rest fs calls = (0, fs1, cs) ∧ fs ⊆ fs1 ∧
      resolve (pre ++ rest) ∈ fs1 ∧
      ∀ a b, rest = a ++ '/' :: b → pre ++ a ≠ [] → resolve (pre ++ a) ∈ fs1 := by
  induction rest generalizing pre fs calls with
  | nil =>
    have hp : pre ≠ [] := by simpa using hne
    obtain ⟨fs1, cs, hv, hsub, hall⟩ := mkdirs_visit_ok mode fs pre hp hinv
    unfold mkdirs_loop
    rw [hv]
    refine ⟨fs1, _, rfl, hsub, ?_, ?_⟩
    · simpa using hall _ (List.prefix_refl _)
    · intro a b hab
      cases a <;> cases hab
  | cons x rest ih =>
    unfold mkdirs_loop
    by_cases hx : x = '/' ∧ pre ≠ []
    · rw [if_pos hx]
      obtain ⟨fs1, cs, hv, hsub, hall⟩ := mkdirs_visit_ok mode fs pre hx.2 hinv
      rw [hv]
      simp only
      have hinv1 : ∀ q, q <+: walk_stack (pre ++ [x]) → q ∈ fs1 := by
        intro q hq
        rw [hx.1, walk_stack_slash] at hq
        exact hall q hq
      obtain ⟨fs2, cs2, hl, hsub2, hres, hsplit⟩ := ih (pre ++ [x]) fs1 (calls ++ cs)
        (by simp) hinv1
      refine ⟨fs2, cs2, hl, hsub.trans hsub2, by simpa using hres, ?_⟩
      intro a b hab hpa
      cases a with
      | nil =>
        simp only [List.nil_append, List.cons.injEq] at hab
        simp only [List.append_nil]
        exact hsub2 (hall _ (List.prefix_refl _))
      | cons y a1 =>
        simp only [List.cons_append, List.cons.injEq] at hab
        have := hsplit a1 b hab.2 (by simp)
        rw [← hab.1]
        simpa using this
    · rw [if_neg hx]
      have hinv1 : ∀ q, q <+: walk_stack (pre ++ [x]) → q ∈ fs := by
        intro q hq
        by_cases hs : x = '/'
        · have hpre : pre = [] := by
            by_contra hp
            exact hx ⟨hs, hp⟩
          subst hpre
          subst hs
          have h1 : walk_stack ([] ++ ['/']) = walk_stack [] := by decide
          rw [h1] at hq
          exact hinv q hq
        · rw [walk_stack_other pre x hs] at hq
          exact hinv q hq
      obtain ⟨fs2, cs2, hl, hsub2, hres, hsplit⟩ := ih (pre ++ [x]) fs calls (by simp) hinv1
      refine ⟨fs2, cs2, hl, hsub2, by simpa using hres, ?_⟩
      intro a b hab hpa
      cases a with
      | nil =>
        simp only [List.nil_append, List.cons.injEq] at hab
        simp only [List.append_nil] at hpa
        exact absurd ⟨hab.1, hpa⟩ hx
      | cons y a1 =>
        simp only [List.cons_append, List.cons.injEq] at hab
        have := hsplit a1 b hab.2 (by simp)
        rw [← hab.1]
        simpa using this

theorem reefs_mkdirs_ok (fs : Dirs) (hroot : [] ∈ fs) (path : List Char) (hne : path ≠ [])
    (mode : Int) :
    ∃ fs1 calls, reefs_mkdirs fs path mode = (0, fs1, calls) ∧ fs ⊆ fs1 ∧
      host_access fs1 path = true ∧
      ∀ a b, path = a ++ '/' :: b → a ≠ [] → host_access fs1 a = true := by
  have hinv : ∀ q, q <+: walk_stack [] → q ∈ fs := by
    intro q hq
    have h1 : walk_stack [] = [] := by decide
    rw [h1] at hq
    rw [List.prefix_nil.mp hq]
    exact hroot
  obtain ⟨fs1, cs, hl, hsub, hres, hsplit⟩ := mkdirs_loop_ok mode path [] fs [] (by simpa using hne)
    hinv
  have hacc : ∀ a : List Char, a ≠ [] → resolve a ∈ fs1 → host_access fs1 a = true := by
    intro a ha hin
    cases a with
    | nil => exact absurd rfl ha
    | cons _ _ => simp [host_access, hin]
  refine ⟨fs1, cs, hl, hsub, hacc path hne (by simpa using hres), ?_⟩
  intro a b hab ha
  exact hacc a ha (by simpa using hsplit a b hab (by simpa using ha))

theorem charAt_set_ne (dir : List Char) (i j : Nat) (x : Char) (h : i ≠ j) :
    charAt (dir.set i x) j = charAt dir j := by
  simp [charAt, List.getElem?_set_ne h]

theorem open_parent_loop_head (l : Nat) (hl : l - 1 ≠ 13) (i1 : Nat) (dir : List Char)
    (hi : 13 < i1) (h13 : charAt dir 13 = '/') (h0 : charAt dir 0 = '/') :
    charAt (open_parent_loop l i1 dir) 0 = '/' := by
  induction i1 generalizing dir with
  | zero => omega
  | succ i ih =>
    unfold open_parent_loop
    by_cases hc : charAt dir i = '/'
    · rw [if_pos hc]
      by_cases hlast : i ≠ l - 1
      · rw [if_pos hlast, charAt_set_ne _ _ _ _ (by omega)]
        exact h0
      · rw [if_neg hlast]
        have hi13 : i ≠ 13 := by omega
        apply ih
        · omega
        · rw [charAt_set_ne _ _ _ _ hi13]; exact h13
        · rw [charAt_set_ne _ _ _ _ (by omega)]; exact h0
    · rw [if_neg hc]
      have hi13 : i ≠ 13 := by
        intro e
        rw [e] at hc
        exact hc h13
      exact ih dir (by omega) h13 h0

theorem cstr_ne_nil (dir : List Char) (h0 : charAt dir 0 = '/') : cstr dir ≠ [] := by
  cases dir with
  | nil => simp [charAt] at h0
  | cons c cs =>
    simp only [charAt, List.getD_cons_zero] at h0
    subst h0
    simp [cstr, List.takeWhile]

/-- The parent that `reefs_open` computes for a prefixed path is never empty:
the scan stops at a `/` of `REEFS_PATH` at the latest. -/
theorem open_parent_ne_nil (p : List Char) : open_parent ( reefs_path_prefix p) ≠ [] := by
  obtain ⟨t, ht⟩ := reefs_path_prefix_root p
  have hlen : 19 ≤ ( reefs_path_prefix p).length := by
    rw [← ht]
    have : REEFS_PATH.length = 19 := by decide
    simp [this]
  have h13 : charAt ( reefs_path_prefix p) 13 = '/' := by
    rw [← ht]; rfl
  have h0 : charAt ( reefs_path_prefix p) 0 = '/' := by
    rw [← ht]; rfl
  unfold open_parent
  apply cstr_ne_nil
  exact open_parent_loop_head _ (by omega) _ _ (by omega) h13 h0

theorem charAt_append_name (d name : List Char) (k : Nat) :
    charAt (d ++ '/' :: name) (d.length + 1 + k) = charAt name k := by
  simp only [charAt, List.getD_eq_getElem?_getD]
  rw [List.getElem?_append_right (by omega)]
  have : d.length + 1 + k - d.length = k + 1 := by omega
  rw [this]
  simp

theorem charAt_ne_slash (name : List Char) (hname : '/' ∉ name) (k : Nat) :
    charAt name k ≠ '/' := by
  simp only [charAt, List.getD_eq_getElem?_getD]
  by_cases hk : k < name.length
  · rw [List.getElem?_eq_getElem hk]
    simp only [Option.getD_some]
    intro e
    exact hname (e ▸ List.getElem_mem hk)
  · rw [List.getElem?_eq_none (by omega)]
    decide

theorem open_parent_loop_name (d name : List Char) (hname : '/' ∉ name) (l k : Nat) :
    open_parent_loop l (d.length + 1 + k) (d ++ '/' :: name) =
      open_parent_loop l (d.length + 1) (d ++ '/' :: name) := by
  induction k with
  | zero => rfl
  | succ k ih =>
    have : d.length + 1 + (k + 1) = (d.length + 1 + k) + 1 := by omega
    rw [this]
    unfold open_parent_loop
    rw [charAt_append_name, if_neg (charAt_ne_slash name hname k)]
    exact ih

/-- For a path `d/name` whose last component `name` is not empty, `reefs_open`
hands `d` to `reefs_mkdirs`: the path with its last component removed. -/
theorem open_parent_last_component (d name : List Char) (hd : Char.ofNat 0 ∉ d)
    (hne : name ≠ []) (hname : '/' ∉ name) : open_parent (d ++ '/' :: name) = d := by
  unfold open_parent
  have hlen : (d ++ '/' :: name).length = d.length + 1 + name.length := by
    simp; omega
  rw [hlen, open_parent_loop_name d name hname]
  unfold open_parent_loop
  have h1 : charAt (d ++ '/' :: name) d.length = '/' := by
    simp only [charAt, List.getD_eq_getElem?_getD]
    rw [List.getElem?_append_right (le_refl _)]
    simp
  have hpos : 0 < name.length := List.length_pos.mpr hne
  have h2 : d.length ≠ d.length + 1 + name.length - 1 := by omega
  rw [if_pos h1, if_pos h2]
  have h3 : (d ++ '/' :: name).set d.length (Char.ofNat 0) = d ++ Char.ofNat 0 :: name := by
    rw [List.set_append_right _ _ (le_refl _)]
    simp
  rw [h3]
  exact cstr_append_nul d name hd

/-- C9: over the host filesystem as a set of existing directories that
contains the filesystem root, for every path string `p` and mode,
`reefs_mkdirs` on the prefixed path returns 0, removes nothing, and afterwards
the path and every non-empty `/`-delimited prefix of it exist; `reefs_mkdir` is
that call; and `reefs_open` with the create flag does the same for the parent
it computes from the prefixed path, then issues the `open` on the prefixed
path; for a path `d/name` with a non-empty last component that parent is `d`. -/
theorem reefs_mkdirs_creates_every_prefix (fs : Dirs) (hroot : [] ∈ fs) (p : List Char)
    (mode : Int) :
    (∃ fs1 calls, reefs_mkdirs fs ( reefs_path_prefix p) mode = (0, fs1, calls) ∧
      reefs_mkdir fs p mode = (0, fs1, calls) ∧ fs ⊆ fs1 ∧
      host_access fs1 ( reefs_path_prefix p) = true ∧
      ∀ a b, reefs_path_prefix p = a ++ '/' :: b → a ≠ [] → host_access fs1 a = true) ∧
    (∀ oc res flags, flags &&& oc ≠ 0 →
      ∃ fs2 calls2, reefs_mkdirs fs (open_parent ( reefs_path_prefix p)) 0o700 = (0, fs2, calls2) ∧
        reefs_open oc res fs p flags = (if res.rc < 0 then -res.errno else res.rc, fs2,
          calls2 ++ [HostCall.openFile ( reefs_path_prefix p) flags]) ∧
        fs ⊆ fs2 ∧ host_access fs2 (open_parent ( reefs_path_prefix p)) = true ∧
        ∀ a b, open_parent ( reefs_path_prefix p) = a ++ '/' :: b → a ≠ [] →
          host_access fs2 a = true) ∧
    (∀ d name, Char.ofNat 0 ∉ d → name ≠ [] → '/' ∉ name →
      open_parent (d ++ '/' :: name) = d) := by
  refine ⟨?_, ?_, open_parent_last_component⟩
  · have hne : reefs_path_prefix p ≠ [] := by
      obtain ⟨t, ht⟩ := reefs_path_prefix_root p
      rw [← ht]
      have : REEFS_PATH ≠ [] := by decide
      simp [this]
    obtain ⟨fs1, calls, h1, h2, h3, h4⟩ := reefs_mkdirs_ok fs hroot _ hne mode
    exact ⟨fs1, calls, h1, h1, h2, h3, h4⟩
  · intro oc res flags hflag
    obtain ⟨fs2, calls2, h1, h2, h3, h4⟩ :=
      reefs_mkdirs_ok fs hroot _ (open_parent_ne_nil p) 0o700
    refine ⟨fs2, calls2, h1, ?_, h2, h3, h4⟩
    unfold reefs_open
    simp only [hflag, ne_eq, not_false_eq_true, if_true, h1, not_true_eq_false, if_false]

/-- C9 at the path `/a/b` on a filesystem that holds the root only. -/
theorem reefs_mkdirs_creates_every_prefix_witness :
    (∃ fs1 calls, reefs_mkdirs [[]] ( reefs_path_prefix "/a/b".toList) 448 = (0, fs1, calls) ∧
      reefs_mkdir [[]] "/a/b".toList 448 = (0, fs1, calls) ∧ [[]] ⊆ fs1 ∧
      host_access fs1 ( reefs_path_prefix "/a/b".toList) = true ∧
      ∀ a b, reefs_path_prefix "/a/b".toList = a ++ '/' :: b → a ≠ [] →
        host_access fs1 a = true) ∧
    (∀ oc res flags, flags &&& oc ≠ 0 →
      ∃ fs2 calls2,
        reefs_mkdirs [[]] (open_parent ( reefs_path_prefix "/a/b".toList)) 0o700
          = (0, fs2, calls2) ∧
        reefs_open oc res [[]] "/a/b".toList flags = (if res.rc < 0 then -res.errno else res.rc,
          fs2, calls2 ++ [HostCall.openFile ( reefs_path_prefix "/a/b".toList) flags]) ∧
        [[]] ⊆ fs2 ∧ host_access fs2 (open_parent ( reefs_path_prefix "/a/b".toList)) = true ∧
        ∀ a b, open_parent ( reefs_path_prefix "/a/b".toList) = a ++ '/' :: b → a ≠ [] →
          host_access fs2 a = true) ∧
    (∀ d name, Char.ofNat 0 ∉ d → name ≠ [] → '/' ∉ name →
      open_parent (d ++ '/' :: name) = d) :=
  reefs_mkdirs_creates_every_prefix [[]] (by decide) "/a/b".toList 448

/-! ## Enumeration by repeated reefs_readdir -/

theorem slice_split (l : List HostDirent) (a b c : Nat) (hab : a ≤ b) (hbc : b ≤ c) :
    (l.take c).drop a = (l.take b).drop a ++ (l.take c).drop b := by
  have h1 : l.take c = l.take b ++ (l.take c).drop b := by
    have := (List.take_append_drop b (l.take c)).symm
    rwa [List.take_take, Nat.min_eq_left hbc] at this
  by_cases hb : b ≤ l.length
  · conv_lhs => rw [h1]
    rw [List.drop_append_of_le_length (by simp [List.length_take]; omega)]
  · have h2 : (l.take c).drop b = [] := by
      apply List.drop_eq_nil_of_le
      simp only [List.length_take]
      omega
    rw [h2, List.append_nil, List.take_of_length_le (by omega), List.take_of_length_le (by omega)]

theorem drop_split (l : List HostDirent) (a c : Nat) (hac : a ≤ c) :
    l.drop a = (l.take c).drop a ++ l.drop c := by
  by_cases hc : c ≤ l.length
  · conv_lhs => rw [← List.take_append_drop c l]
    rw [List.drop_append_of_le_length (by simp [List.length_take]; omega)]
  · have h : l.drop c = [] := List.drop_eq_nil_of_le (by omega)
    rw [h, List.append_nil, List.take_of_length_le (by omega)]

theorem slice_one (l : List HostDirent) (b : Nat) (hb : b < l.length) :
    (l.take (b + 1)).drop b = [l[b]] := by
  rw [List.take_succ, List.getElem?_eq_getElem hb]
  simp only [Option.toList_some]
  rw [List.drop_append_of_le_length (by simp [List.length_take]; omega)]
  rw [List.drop_eq_nil_of_le (by simp [List.length_take])]
  rfl

theorem readdir_at (entries : List HostDirent) (pos : Nat) :
    (readdir ⟨entries, pos⟩ = (none, ⟨entries, pos⟩) ∧ entries.length ≤ pos) ∨
    ∃ h : pos < entries.length, readdir ⟨entries, pos⟩ = (some entries[pos], ⟨entries, pos + 1⟩) := by
  by_cases hlt : pos < entries.length
  · right
    refine ⟨hlt, ?_⟩
    unfold readdir
    simp only [List.get?_eq_getElem?, List.getElem?_eq_getElem hlt]
  · left
    refine ⟨?_, by omega⟩
    unfold readdir
    simp only [List.get?_eq_getElem?, List.getElem?_eq_none (Nat.le_of_not_lt hlt)]

theorem kept_nil_of_fit_zero (abi : Abi) (hW : 0 < abi.long_size) (es : List HostDirent)
    (hfit : ∀ e ∈ es, skipped e.d_name = false → reclen_of abi e.d_name ≤ 0) :
    kept es = [] := by
  unfold kept
  rw [List.filter_eq_nil_iff]
  intro e he hk
  have hs : skipped e.d_name = false := by simpa using hk
  have h1 := hfit e he hs
  have h2 := reclen_of_pos abi hW e.d_name
  omega

/-- One call's loop, when every entry that is not skipped fits the buffer: the
records added are the kept entries from `lastdoff` up to the position the stream
is left at; the result is `EOF` with nothing kept ahead, or positive with the
stream moved forward. -/
theorem readdir_loop_enum (abi : Abi) (hW : 0 < abi.long_size) (len : Int)
    (entries : List HostDirent)
    (hfit : ∀ e ∈ entries, skipped e.d_name = false → reclen_of abi e.d_name ≤ len)
    (p0 : Nat) (fuel pos : Nat) (cnt retlen : Int) (lastdoff : Nat) (d : Int)
    (out : List ReefsDirent) (calls : List DirCall)
    (hf : entries.length - pos + 1 ≤ fuel) (hp0 : p0 ≤ lastdoff) (hlp : lastdoff ≤ pos)
    (hskip : kept ((entries.take pos).drop lastdoff) = [])
    (h0 : 0 ≤ retlen) (hfull : retlen = 0 → cnt = len) (hadv : retlen ≠ 0 → p0 < lastdoff) :
    ∃ r newpos recs,
      readdir_loop abi fuel ⟨entries, pos⟩ cnt retlen lastdoff d out calls = some r ∧
      r.dir = ⟨entries, newpos⟩ ∧ r.out = out ++ recs ∧
      recs.map payload = kept ((entries.take newpos).drop lastdoff) ∧ lastdoff ≤ newpos ∧
      (newpos ≤ pos ∨ newpos ≤ entries.length) ∧
      ((r.ret = EOF ∧ kept (entries.drop newpos) = [] ∧ retlen = 0 ∧ recs = []) ∨
        (0 < r.ret ∧ p0 < newpos)) := by
  induction fuel generalizing pos cnt retlen lastdoff d out calls with
  | zero => omega
  | succ n ih =>
    have hexit : ∀ calls1, (cnt = 0 ∨ entries.length ≤ pos) →
        ∃ r newpos recs,
          some (⟨if retlen = 0 then EOF else retlen, ⟨entries, pos⟩, out, calls1⟩ : Readdir)
            = some r ∧
          r.dir = ⟨entries, newpos⟩ ∧ r.out = out ++ recs ∧
          recs.map payload = kept ((entries.take newpos).drop lastdoff) ∧ lastdoff ≤ newpos ∧
          (newpos ≤ pos ∨ newpos ≤ entries.length) ∧
          ((r.ret = EOF ∧ kept (entries.drop newpos) = [] ∧ retlen = 0 ∧ recs = []) ∨
            (0 < r.ret ∧ p0 < newpos)) := by
      intro calls1 hwhy
      refine ⟨_, pos, [], rfl, rfl, by simp, by simpa using hskip.symm, hlp, Or.inl (le_refl _),
        ?_⟩
      by_cases hz : retlen = 0
      · left
        refine ⟨by simp [hz], ?_, hz, rfl⟩
        rcases hwhy with hc | hend
        · have hlen : len = 0 := by rw [← hfull hz]; exact hc
          apply kept_nil_of_fit_zero abi hW
          intro e he hs
          have := hfit e (List.mem_of_mem_drop he) hs
          omega
        · rw [List.drop_eq_nil_of_le hend]; rfl
      · right
        have := hadv hz
        refine ⟨by simp only [hz, if_false]; omega, by omega⟩
    unfold readdir_loop
    by_cases hc : cnt = 0
    · simp only [hc, ne_eq, not_true_eq_false, if_false]
      exact hexit calls (Or.inl hc)
    · simp only [ne_eq, hc, not_false_eq_true, if_true]
      rcases readdir_at entries pos with ⟨hrd, hend⟩ | ⟨hlt, hrd⟩
      · rw [hrd]
        exact hexit _ (Or.inr hend)
      · rw [hrd]
        simp only
        have htake : (entries.take (pos + 1)).drop lastdoff
            = (entries.take pos).drop lastdoff ++ [entries[pos]] := by
          rw [slice_split entries lastdoff pos (pos + 1) hlp (by omega), slice_one entries pos hlt]
        cases hs : skipped entries[pos].d_name with
        | true =>
          simp only [if_true]
          have hskip1 : kept ((entries.take (pos + 1)).drop lastdoff) = [] := by
            rw [htake]
            simp [kept, hs] at hskip ⊢
            exact hskip
          obtain ⟨r, newpos, recs, hr, hdir, hout, hrecs, hle, hbound, hret⟩ :=
            ih (pos + 1) cnt retlen lastdoff d out (calls ++ [DirCall.readdir false]) (by omega)
              hp0 (by omega) hskip1 h0 hfull hadv
          exact ⟨r, newpos, recs, hr, hdir, hout, hrecs, hle, Or.inr (by omega), hret⟩
        | false =>
          simp only [Bool.false_eq_true, if_false]
          have hrpos := reclen_of_pos abi hW entries[pos].d_name
          by_cases hbig : reclen_of abi entries[pos].d_name > cnt
          · simp only [hbig, if_true]
            have hz : retlen ≠ 0 := by
              intro hz
              have h1 := hfit _ (List.getElem_mem hlt) hs
              have h2 := hfull hz
              omega
            refine ⟨_, lastdoff, [], rfl, rfl, by simp, ?_, le_refl _, Or.inl hlp, Or.inr ?_⟩
            · rw [List.drop_eq_nil_of_le (by simp [List.length_take])]; rfl
            · exact ⟨by simp only [hz, if_false]; omega, hadv hz⟩
          · simp only [hbig, if_false]
            obtain ⟨r, newpos, recs, hr, hdir, hout, hrecs, hle, hbound, hret⟩ :=
              ih (pos + 1) (cnt - reclen_of abi entries[pos].d_name)
                (retlen + reclen_of abi entries[pos].d_name) (pos + 1)
                (d + reclen_of abi entries[pos].d_name)
                (out ++ [⟨d, reclen_of abi entries[pos].d_name, entries[pos].d_off,
                  entries[pos].d_type, entries[pos].d_name⟩])
                (calls ++ [DirCall.readdir false, DirCall.telldir false])
                (by omega) (by omega) (le_refl _)
                (by rw [List.drop_eq_nil_of_le (by simp [List.length_take])]; rfl)
                (by omega) (fun h => by omega) (fun _ => by omega)
            simp only [telldir] at hr ⊢
            refine ⟨r, newpos, ⟨d, reclen_of abi entries[pos].d_name, entries[pos].d_off,
                entries[pos].d_type, entries[pos].d_name⟩ :: recs, hr, hdir,
              by rw [hout]; simp, ?_, by omega, Or.inr (by omega), ?_⟩
            · rw [slice_split entries lastdoff (pos + 1) newpos (by omega) hle, htake]
              simp only [kept, List.filter_append] at hskip hrecs ⊢
              rw [hskip, ← hrecs]
              simp [payload, hs]
            · right
              rcases hret with ⟨-, -, hz, -⟩ | ⟨hpos, -⟩
              · omega
              · exact ⟨hpos, by omega⟩

/-- Repeated `reefs_readdir` with a fixed length that every entry the walk
keeps fits: the calls never return `-E2BIG`, the first result that is not
positive is `EOF`, and the records written over all calls are the kept entries
ahead of the starting position, each once, in stream order. -/
theorem readdir_all_enumerates (abi : Abi) (hW : 0 < abi.long_size) (fd : Int) (len : Int)
    (entries : List HostDirent)
    (hfit : ∀ e ∈ entries, skipped e.d_name = false → reclen_of abi e.d_name ≤ len)
    (fuel : Nat) (ks : Keys) (pos : Nat) (acc : List ReefsDirent)
    (hs : pthread_getspecific ks fd = some ⟨entries, pos⟩)
    (hf : entries.length - pos + 1 ≤ fuel) :
    ∃ recs, readdir_all abi fd len fuel ks acc = some (EOF, acc ++ recs) ∧
      recs.map payload = kept (entries.drop pos) := by
  induction fuel generalizing ks pos acc with
  | zero => omega
  | succ n ih =>
    have hfd := getspecific_nonneg ks fd _ hs
    obtain ⟨r, newpos, recs, hr, hdir, hout, hrecs, hle, hbound, hret⟩ :=
      readdir_loop_enum abi hW len entries hfit pos (entries.length - pos + 1) pos len 0 pos 0 []
        [DirCall.telldir false] (le_refl _) (le_refl _) (le_refl _)
        (by rw [List.drop_eq_nil_of_le (by simp [List.length_take])]; rfl)
        (le_refl _) (fun _ => rfl) (fun h => absurd rfl h)
    have hcall : reefs_readdir abi ks fd false len
        = some ⟨r.ret, pthread_setspecific ks fd r.dir, r.out, r.calls⟩ := by
      unfold reefs_readdir
      simp only [hs, Bool.false_eq_true, if_false, telldir, Option.isNone_some, hr,
        Option.map_some']
    unfold readdir_all
    rw [hcall]
    simp only
    have hsplit := drop_split entries pos newpos hle
    rcases hret with ⟨heof, hkept, -, hnil⟩ | ⟨hpos, hlt⟩
    · have hnp : ¬ (0 : Int) < r.ret := by rw [heof]; decide
      rw [if_neg hnp, heof, hout]
      refine ⟨recs, by simp, ?_⟩
      rw [hsplit]
      simp only [kept, List.filter_append] at hkept hrecs ⊢
      rw [hkept, ← hrecs]
      simp
    · rw [if_pos hpos]
      obtain ⟨recs2, h2, hrecs2⟩ := ih (pthread_setspecific ks fd r.dir) newpos (acc ++ r.out)
        (by rw [hdir]; exact getspecific_set ks fd _ hfd) (by omega)
      rw [h2, hout]
      refine ⟨recs ++ recs2, by simp, ?_⟩
      rw [hsplit]
      simp only [kept, List.filter_append, List.map_append] at hrecs hrecs2 ⊢
      rw [hrecs, hrecs2]

/-- The enumeration at a directory with `.`, `x`, `..` and `y` and a buffer of 16
bytes, one record per call. -/
theorem readdir_all_enumerates_witness :
    ∃ recs, readdir_all abi64 0 16 5
        [(0, ⟨[entryNamed ".", entryNamed "x", entryNamed "..", entryNamed "y"], 0⟩)] []
        = some (EOF, [] ++ recs) ∧
      recs.map payload
        = kept ([entryNamed ".", entryNamed "x", entryNamed "..", entryNamed "y"].drop 0) :=
  readdir_all_enumerates abi64 (by decide) 0 16
    [entryNamed ".", entryNamed "x", entryNamed "..", entryNamed "y"] (by decide) 5
    [(0, ⟨[entryNamed ".", entryNamed "x", entryNamed "..", entryNamed "y"], 0⟩)] 0 []
    (by decide) (by decide)

/-- Every call of `reefs_readdir` returns: the fuel given to the loop is
enough. -/
theorem reefs_readdir_total (abi : Abi) (ks : Keys) (fd : Int) (dataNull : Bool) (len : Int) :
    ∃ r, reefs_readdir abi ks fd dataNull len = some r := by
  unfold reefs_readdir
  simp only
  cases hg : pthread_getspecific ks fd with
  | none => exact ⟨_, rfl⟩
  | some s =>
    simp only
    cases dataNull with
    | true => exact ⟨_, rfl⟩
    | false =>
      obtain ⟨r, hr⟩ := readdir_loop_total abi (s.entries.length - s.pos + 1) s len 0 (telldir s) 0
        [] [DirCall.telldir (some s).isNone] (le_refl _)
      simp only [Bool.false_eq_true, if_false, hr, Option.map_some']
      exact ⟨_, rfl⟩

/-- Every call of `reefs_read` and of `reefs_write` returns: the fuel given to
the loop is enough, whatever the host does. -/
theorem reefs_read_write_total (io : IoOracle) (len : Int) :
    (∃ r, reefs_read io len = some r) ∧ (∃ r, reefs_write io len = some r) :=
  ⟨xfer_loop_total io len len.toNat 0 (-1) [] (by simp),
    xfer_loop_total io len len.toNat 0 (-1) [] (by simp)⟩

end Supp
